import Mathlib

/-!
Verification of the `disnake-ext-pieces` lifecycle engine
(`src/disnake/ext/pieces/piece.py`).

The development shallowly embeds the `Piece` class: its registration
categories, check sequences, hooks, loops, and the `load`/`unload`
protocol against a host ("bot").  Python callables (checks, listeners,
hooks, loop bodies) are identified by numeric ids; dictionaries are
insertion-ordered association lists, matching CPython dict semantics.

The host itself (a disnake bot) is not part of this repository; it is
modelled at the interface boundary that the specification fixes for it
(`addCommand`/`removeCommand`, `addCheck`/`removeCheck`,
`addListener`/`removeListener`, sync scheduling), with insertion-ordered
tables and first-occurrence removal.

A notable point of the source that the model keeps faithfully: the
attribute `_global_command_once_checks` appears in `__slots__` and is
read by `global_command_check_once`, `load` and `unload`, but `__init__`
never assigns it.  Reading an unassigned slot raises `AttributeError`;
the model represents the slot as an `Option` that is `none` on a freshly
constructed piece, and every read of a `none` slot is an explicit error.
Likewise `load` and `unload` are embedded as state transformers that
return the partial state reached at the point of an exception, since a
Python exception leaves all mutations made so far visible.
-/

namespace Pieces

/-- Identifier of a check predicate (a Python callable, compared by identity). -/
abbrev Check := Nat

/-- A Python callable used as a command callback, listener or similar:
its identity, its `__name__`, and whether `asyncio.iscoroutinefunction`
holds of it. -/
structure Callable where
  cid : Nat
  name : String
  isCoroutine : Bool
deriving DecidableEq, Repr

/-- A zero-argument hook callable; `isCoroutine` records whether
`asyncio.iscoroutinefunction` holds of it, `fails` whether awaiting it
raises. -/
structure Hook where
  hid : Nat
  isCoroutine : Bool
  fails : Bool
deriving DecidableEq, Repr

/-- A `tasks.Loop` handle: identity, the optional `_before_loop` callback,
and whether the loop is currently running. -/
structure Loop where
  lid : Nat
  before_loop : Option Nat
  running : Bool
deriving DecidableEq, Repr

/-- A command entry (prefix, slash, user or message command): its
qualified name, callback, its own ordered check list, and its `extras`
mapping (values are object ids; the key `"piece"` would hold the id of
the owning piece). -/
structure Command where
  name : String
  callback : Callable
  checks : List Check
  extras : List (String × Nat)
deriving DecidableEq, Repr

/-- Errors the embedded code can raise. -/
inductive Err where
  | typeError
  | attributeError
  | lookupError
  | commandRegistrationError
  | runtimeError
  | hookFailed
deriving DecidableEq, Repr

/-- CPython dict lookup `tbl.get(k)` on an insertion-ordered mapping. -/
def dictGet (tbl : List (String × α)) (k : String) : Option α :=
  match tbl with
  | [] => none
  | (k', v) :: r => if k' = k then some v else dictGet r k

/-- CPython dict insertion: replace the value in place if the key exists
(keeping its position in insertion order), otherwise append at the end. -/
def dictInsert (tbl : List (String × α)) (k : String) (v : α) : List (String × α) :=
  match tbl with
  | [] => [(k, v)]
  | (k', v') :: r => if k' = k then (k', v) :: r else (k', v') :: dictInsert r k v

/-- Keys of an association list, in insertion order. -/
def keysOf (tbl : List (String × α)) : List String :=
  tbl.map Prod.fst

/-- Remove the entry with the given key (a no-op when absent), as
`dict.pop(k, None)` / the host's remove-by-name operations behave. -/
def dictRemove (tbl : List (String × α)) (k : String) : List (String × α) :=
  match tbl with
  | [] => []
  | (k', v') :: r => if k' = k then r else (k', v') :: dictRemove r k

/-- The listener-table insertion `table.setdefault(key, []).append(f)`:
append to the event's sequence, creating it when absent. -/
def listenerInsert (tbl : List (String × List Callable)) (ev : String) (f : Callable) :
    List (String × List Callable) :=
  match tbl with
  | [] => [(ev, [f])]
  | (e, fs) :: r =>
      if e = ev then (e, fs ++ [f]) :: r else (e, fs) :: listenerInsert r ev f

/-- Host-side listener removal at the interface boundary of the spec:
drop the first occurrence of the callable under the event, removing the
event key if its sequence becomes empty; a no-op when absent. -/
def listenerRemove (tbl : List (String × List Callable)) (ev : String) (f : Callable) :
    List (String × List Callable) :=
  match tbl with
  | [] => []
  | (e, fs) :: r =>
      if e = ev then
        (if (fs.erase f).isEmpty then r else (e, fs.erase f) :: r)
      else (e, fs) :: listenerRemove r ev f

/-- Remove the listed checks from a check sequence, one first-occurrence
removal per listed check, in order. -/
def removeChecks (tbl : List Check) (cs : List Check) : List Check :=
  cs.foldl List.erase tbl

/-- Remove the entries with the listed keys from a command table, in order. -/
def removeKeys (tbl : List (String × α)) (ks : List String) : List (String × α) :=
  ks.foldl dictRemove tbl

/-- The state of a `Piece` object: registration categories, the nine
check sequences plus the never-initialized call-once slot, listeners,
loops, the four hook phases, and the `_bot` back-reference.  Field names
follow the Python attributes (`_global_command_once_checks` is an
`Option` because `__init__` omits it from the slot assignments). -/
structure Piece where
  pid : Nat
  name : String
  extras : List (String × Nat)
  commands : List (String × Command)
  slash_commands : List (String × Command)
  user_commands : List (String × Command)
  message_commands : List (String × Command)
  command_checks : List Check
  slash_command_checks : List Check
  message_command_checks : List Check
  user_command_checks : List Check
  global_command_checks : List Check
  global_command_once_checks : Option (List Check)
  global_application_command_checks : List Check
  global_slash_command_checks : List Check
  global_message_command_checks : List Check
  global_user_command_checks : List Check
  listeners : List (String × List Callable)
  loops : List Loop
  pre_load_hooks : List Hook
  post_load_hooks : List Hook
  pre_unload_hooks : List Hook
  post_unload_hooks : List Hook
  bot : Option Nat
deriving DecidableEq, Repr

/-- `Piece.__init__`: every category empty; the call-once slot is left
unassigned (`none`), exactly as the source's `__init__` never assigns
`_global_command_once_checks`; `_bot` is `None`. -/
def initPiece (pid : Nat) (name : String) (extras : List (String × Nat)) : Piece where
  pid := pid
  name := name
  extras := extras
  commands := []
  slash_commands := []
  user_commands := []
  message_commands := []
  command_checks := []
  slash_command_checks := []
  message_command_checks := []
  user_command_checks := []
  global_command_checks := []
  global_command_once_checks := none
  global_application_command_checks := []
  global_slash_command_checks := []
  global_message_command_checks := []
  global_user_command_checks := []
  listeners := []
  loops := []
  pre_load_hooks := []
  post_load_hooks := []
  pre_unload_hooks := []
  post_unload_hooks := []
  bot := none

/-- `Piece.bot` property: raises `RuntimeError` while `_bot` is unset. -/
def Piece.botProp (p : Piece) : Except Err Nat :=
  match p.bot with
  | none => .error .runtimeError
  | some b => .ok b

/-- The command constructor `cls(callback, name = ..., **attributes)` as
`Piece.command`/`Piece.group` invoke it: `attributes` there is always the
empty dict, so the entry starts with no checks and empty extras. -/
def mkCommand (cb : Callable) (name : String) : Command where
  name := name
  callback := cb
  checks := []
  extras := []

/-- `Piece.command(name, cls, **kwargs)` applied to a callback: rejects
non-coroutine callbacks with `TypeError`, then registers the constructed
command under its qualified name.  The `kwargs` argument is accepted and
then ignored, as in the source (`attributes` is initialised to `{}` and
`kwargs` is never read). -/
def Piece.command (p : Piece) (name? : Option String)
    (kwargs : List (String × Nat)) (cb : Callable) : Except Err (Piece × Command) :=
  let attributes : List (String × Nat) := []
  if cb.isCoroutine then
    let c := mkCommand cb (name?.getD cb.name)
    let _ := kwargs
    let _ := attributes
    .ok ({ p with commands := dictInsert p.commands c.name c }, c)
  else .error .typeError

/-- `Piece.group`: identical body to `Piece.command` up to the richer
default class, which has no observable effect here. -/
def Piece.group (p : Piece) (name? : Option String)
    (kwargs : List (String × Nat)) (cb : Callable) : Except Err (Piece × Command) :=
  let _ := kwargs
  if cb.isCoroutine then
    let c := mkCommand cb (name?.getD cb.name)
    .ok ({ p with commands := dictInsert p.commands c.name c }, c)
  else .error .typeError

/-- `Piece.slash_command` applied to a callback (with `attributes`
restricted to the shape the model tracks): rejects non-coroutine
callbacks, registers under the qualified name.  Unlike `command`, the
decorator does forward its `attributes` to the constructor; none of
them stamp `extras["piece"]`. -/
def Piece.slash_command (p : Piece) (name? : Option String)
    (extrasAttr : List (String × Nat)) (cb : Callable) : Except Err (Piece × Command) :=
  if cb.isCoroutine then
    let c : Command :=
      { name := name?.getD cb.name, callback := cb, checks := [], extras := extrasAttr }
    .ok ({ p with slash_commands := dictInsert p.slash_commands c.name c }, c)
  else .error .typeError

/-- `Piece._apply_attrs` restricted to its extras-stamping effect: ensure
`extras["piece"]` and `extras["metadata"]` are set without overwriting
existing values.  Defined because the source defines it; no registrar in
the source ever calls it. -/
def Piece.applyAttrsExtras (p : Piece) (extras : List (String × Nat)) :
    List (String × Nat) :=
  let e1 := if (dictGet extras "piece").isSome then extras else extras ++ [("piece", p.pid)]
  if (dictGet e1 "metadata").isSome then e1 else e1 ++ [("metadata", p.pid)]

/-- `get_parent_piece`: reads `obj.extras["piece"]`, raising
`LookupError` when the key is absent. -/
def get_parent_piece (c : Command) : Except Err Nat :=
  match dictGet c.extras "piece" with
  | some pid => .ok pid
  | none => .error .lookupError

/-- `Piece.command_check` (and its per-namespace analogues): append the
predicate, return it unchanged. -/
def Piece.command_check (p : Piece) (c : Check) : Piece × Check :=
  ({ p with command_checks := p.command_checks ++ [c] }, c)

/-- `Piece.global_command_check`: append to the plain global sequence,
return the predicate unchanged. -/
def Piece.global_command_check (p : Piece) (c : Check) : Piece × Check :=
  ({ p with global_command_checks := p.global_command_checks ++ [c] }, c)

/-- `Piece.global_command_check_once`: appends to
`self._global_command_once_checks` — an attribute `__init__` never
assigns, so on any piece whose slot is still unassigned the read raises
`AttributeError`. -/
def Piece.global_command_check_once (p : Piece) (c : Check) :
    Except Err (Piece × Check) :=
  match p.global_command_once_checks with
  | none => .error .attributeError
  | some l => .ok ({ p with global_command_once_checks := some (l ++ [c]) }, c)

/-- `Piece.add_listeners`: for each callback, append it under the given
event name (or the callback's own name); no coroutine validation is
performed. -/
def Piece.add_listeners (p : Piece) (cbs : List Callable) (event? : Option String) : Piece :=
  cbs.foldl
    (fun p cb => { p with listeners := listenerInsert p.listeners (event?.getD cb.name) cb })
    p

/-- `Piece.load_hook(post)` applied to a callback: append to the chosen
phase and return the callback; no coroutine validation is performed. -/
def Piece.load_hook (p : Piece) (post : Bool) (h : Hook) : Piece × Hook :=
  if post then ({ p with post_load_hooks := p.post_load_hooks ++ [h] }, h)
  else ({ p with pre_load_hooks := p.pre_load_hooks ++ [h] }, h)

/-- `Piece.unload_hook(post)` applied to a callback. -/
def Piece.unload_hook (p : Piece) (post : Bool) (h : Hook) : Piece × Hook :=
  if post then ({ p with post_unload_hooks := p.post_unload_hooks ++ [h] }, h)
  else ({ p with pre_unload_hooks := p.pre_unload_hooks ++ [h] }, h)

/-- The host ("bot"), modelled at the interface boundary the spec fixes
for it: per-kind command tables (insertion-ordered, rejecting duplicate
names on attach), check sequences for the prefixed-command kind (plain
and call-once) and per application-command kind, a listener table, and
the coalesced sync flag.  `isBotBase` records whether the host supports
prefixed commands (`isinstance(bot, commands.BotBase)`). -/
structure Bot where
  botId : Nat
  isBotBase : Bool
  commands : List (String × Command)
  checks : List Check
  once_checks : List Check
  slash_commands : List (String × Command)
  user_commands : List (String × Command)
  message_commands : List (String × Command)
  slash_checks : List Check
  user_checks : List Check
  message_checks : List Check
  listeners : List (String × List Callable)
  sync_scheduled : Bool
deriving DecidableEq, Repr

/-- `Piece._prepend_plugin_checks`: when the piece-wide sequence is
nonempty, rebind the command's check list to the piece-wide checks
followed by the command's own checks.  The command object is mutated in
place in the source; the model returns the updated entry. -/
def prependPluginChecks (checks : List Check) (c : Command) : Command :=
  if checks.isEmpty then c else { c with checks := checks ++ c.checks }

/-- One command-namespace attach loop of `load`: for each registry entry
in order, `bot.add_<kind>_command(command)` (raising on a duplicate
name, which aborts the loop with the state reached so far) followed by
`_prepend_plugin_checks`; the mutated object is what both the registry
and the host reference afterwards.  Returns the updated registry
entries, the updated host table, and the error if one was raised. -/
def attachCommands (cat : List Check) :
    List (String × Command) → List (String × Command) →
    List (String × Command) × List (String × Command) × Option Err
  | [], tbl => ([], tbl, none)
  | (n, c) :: rest, tbl =>
      if n ∈ keysOf tbl then ((n, c) :: rest, tbl, some .commandRegistrationError)
      else
        let c' := prependPluginChecks cat c
        let (rest', tbl', e?) := attachCommands cat rest (tbl ++ [(n, c')])
        ((n, c') :: rest', tbl', e?)

/-- The listener attach loop of `load`: `bot.add_listener(listener, event)`
for every pair in registration order. -/
def attachListeners (tbl : List (String × List Callable))
    (ls : List (String × List Callable)) : List (String × List Callable) :=
  ls.foldl (fun tbl evfs => evfs.2.foldl (fun tbl f => listenerInsert tbl evfs.1 f) tbl) tbl

/-- The listener detach loop of `unload`. -/
def detachListeners (tbl : List (String × List Callable))
    (ls : List (String × List Callable)) : List (String × List Callable) :=
  ls.foldl (fun tbl evfs => evfs.2.foldl (fun tbl f => listenerRemove tbl evfs.1 f) tbl) tbl

/-- The loop-start step of `load`: `loop.start()` for each registered
loop, in order; starting an already-running loop raises `RuntimeError`,
aborting with the loops started so far. -/
def startLoops : List Loop → List Loop × Option Err
  | [] => ([], none)
  | l :: rest =>
      if l.running then (l :: rest, some .runtimeError)
      else
        let (rest', e?) := startLoops rest
        ({ l with running := true } :: rest', e?)

/-- `asyncio.gather` over a hook phase: the phase fails iff some hook
raises. -/
def anyFails (hs : List Hook) : Bool :=
  hs.any Hook.fails

/-- A lifecycle result: the piece/host state reached, and the exception
that aborted the run, if any (a Python exception leaves prior mutations
visible, so the partial state is part of the result). -/
abbrev Res := (Piece × Bot) × Option Err

/-- Sequence two lifecycle phases, short-circuiting on an exception. -/
def step (r : Res) (f : Piece → Bot → Res) : Res :=
  match r with
  | (s, some e) => (s, some e)
  | ((p, b), none) => f p b

/-- The `isinstance(bot, commands.BotBase)` block of `load`: attach
prefixed commands (prepending the category checks), then the plain
global checks, then the call-once global checks — the last step reads
the never-initialized `_global_command_once_checks` slot and raises
`AttributeError` whenever that slot is still unset. -/
def loadCmdPhase (p : Piece) (b : Bot) : Res :=
  if b.isBotBase then
    let r := attachCommands p.command_checks p.commands b.commands
    let p := { p with commands := r.1 }
    let b := { b with commands := r.2.1 }
    match r.2.2 with
    | some e => ((p, b), some e)
    | none =>
      let b := { b with checks := b.checks ++ p.global_command_checks }
      match p.global_command_once_checks with
      | none => ((p, b), some .attributeError)
      | some l => ((p, { b with once_checks := b.once_checks ++ l }), none)
  else ((p, b), none)

/-- The omnibus application-command check step of `load`: each global
application check is attached for the slash, user and message kinds
simultaneously. -/
def loadAppAllPhase (p : Piece) (b : Bot) : Res :=
  ((p, { b with
      slash_checks := b.slash_checks ++ p.global_application_command_checks,
      user_checks := b.user_checks ++ p.global_application_command_checks,
      message_checks := b.message_checks ++ p.global_application_command_checks }), none)

/-- The slash-command steps of `load`: attach each slash command
(prepending the slash category checks), then the global slash-only
checks. -/
def loadSlashPhase (p : Piece) (b : Bot) : Res :=
  let r := attachCommands p.slash_command_checks p.slash_commands b.slash_commands
  let p := { p with slash_commands := r.1 }
  let b := { b with slash_commands := r.2.1 }
  match r.2.2 with
  | some e => ((p, b), some e)
  | none =>
      ((p, { b with slash_checks := b.slash_checks ++ p.global_slash_command_checks }), none)

/-- The user-command steps of `load`. -/
def loadUserPhase (p : Piece) (b : Bot) : Res :=
  let r := attachCommands p.user_command_checks p.user_commands b.user_commands
  let p := { p with user_commands := r.1 }
  let b := { b with user_commands := r.2.1 }
  match r.2.2 with
  | some e => ((p, b), some e)
  | none =>
      ((p, { b with user_checks := b.user_checks ++ p.global_user_command_checks }), none)

/-- The message-command steps of `load`. -/
def loadMsgPhase (p : Piece) (b : Bot) : Res :=
  let r := attachCommands p.message_command_checks p.message_commands b.message_commands
  let p := { p with message_commands := r.1 }
  let b := { b with message_commands := r.2.1 }
  match r.2.2 with
  | some e => ((p, b), some e)
  | none =>
      ((p, { b with message_checks := b.message_checks ++ p.global_message_command_checks }), none)

/-- The closing steps of `load`: attach every listener, start every
loop, gather the post-load hooks, and schedule the coalesced command
sync. -/
def loadTail (p : Piece) (b : Bot) : Res :=
  let b := { b with listeners := attachListeners b.listeners p.listeners }
  let r := startLoops p.loops
  let p := { p with loops := r.1 }
  match r.2 with
  | some e => ((p, b), some e)
  | none =>
      if anyFails p.post_load_hooks then ((p, b), some .hookFailed)
      else ((p, { b with sync_scheduled := true }), none)

/-- `Piece.load(bot)`: record the host in `_bot`, gather the pre-load
hooks, walk the categories in the source's order (prefixed commands and
their global checks, omnibus application checks, slash, user and message
commands each followed by their kind's global checks, listeners, loop
starts), gather the post-load hooks, and schedule the coalesced command
sync.  Every abort returns the partial state reached. -/
def load (p : Piece) (b : Bot) : Res :=
  let p := { p with bot := some b.botId }
  if anyFails p.pre_load_hooks then ((p, b), some .hookFailed) else
  step (loadCmdPhase p b) fun p b =>
  step (loadAppAllPhase p b) fun p b =>
  step (loadSlashPhase p b) fun p b =>
  step (loadUserPhase p b) fun p b =>
  step (loadMsgPhase p b) loadTail

/-- The `isinstance(bot, commands.BotBase)` block of `unload`: remove
the prefixed commands by name, the plain global checks, then the
call-once global checks — again reading the never-initialized slot. -/
def unloadCmdPhase (p : Piece) (b : Bot) : Res :=
  if b.isBotBase then
    let b := { b with commands := removeKeys b.commands (keysOf p.commands) }
    let b := { b with checks := removeChecks b.checks p.global_command_checks }
    match p.global_command_once_checks with
    | none => ((p, b), some .attributeError)
    | some l => ((p, { b with once_checks := removeChecks b.once_checks l }), none)
  else ((p, b), none)

/-- `Piece.unload(bot)`: gather the pre-unload hooks, detach everything
in the source's order (prefixed commands and checks, omnibus application
checks, slash/user/message commands and their kind checks, listeners),
cancel every loop, gather the post-unload hooks, and schedule the
coalesced command sync.  `_bot` is never cleared. -/
def unload (p : Piece) (b : Bot) : Res :=
  if anyFails p.pre_unload_hooks then ((p, b), some .hookFailed) else
  step (unloadCmdPhase p b) fun p b =>
  let b := { b with
      slash_checks := removeChecks b.slash_checks p.global_application_command_checks,
      user_checks := removeChecks b.user_checks p.global_application_command_checks,
      message_checks := removeChecks b.message_checks p.global_application_command_checks }
  let b := { b with slash_commands := removeKeys b.slash_commands (keysOf p.slash_commands) }
  let b := { b with slash_checks := removeChecks b.slash_checks p.global_slash_command_checks }
  let b := { b with user_commands := removeKeys b.user_commands (keysOf p.user_commands) }
  let b := { b with user_checks := removeChecks b.user_checks p.global_user_command_checks }
  let b := { b with message_commands := removeKeys b.message_commands (keysOf p.message_commands) }
  let b := { b with message_checks := removeChecks b.message_checks p.global_message_command_checks }
  let b := { b with listeners := detachListeners b.listeners p.listeners }
  let p := { p with loops := p.loops.map (fun l => { l with running := false }) }
  if anyFails p.post_unload_hooks then ((p, b), some .hookFailed)
  else ((p, { b with sync_scheduled := true }), none)

/-- Registry entries as `load` leaves them: every entry's check list is
rebound to the category checks followed by its own checks. -/
def mutEntries (cat : List Check) (E : List (String × Command)) : List (String × Command) :=
  E.map fun nc => (nc.1, prependPluginChecks cat nc.2)

theorem prependPluginChecks_eq (cat : List Check) (c : Command) :
    prependPluginChecks cat c = { c with checks := cat ++ c.checks } := by
  cases cat <;> simp [prependPluginChecks]

theorem keysOf_mutEntries (cat : List Check) (E : List (String × Command)) :
    keysOf (mutEntries cat E) = keysOf E := by
  simp [keysOf, mutEntries]

theorem keysOf_append (t1 t2 : List (String × α)) :
    keysOf (t1 ++ t2) = keysOf t1 ++ keysOf t2 := by
  simp [keysOf]

/-- Characterization of a successful command-namespace attach: the
registry comes back with every entry mutated, the host table is the old
table extended by exactly those mutated entries, the attached keys avoid
the pre-existing table, and they are mutually distinct. -/
theorem attachCommands_ok (cat : List Check) :
    ∀ (E tbl : List (String × Command)),
      (attachCommands cat E tbl).2.2 = none →
      (attachCommands cat E tbl).1 = mutEntries cat E ∧
      (attachCommands cat E tbl).2.1 = tbl ++ mutEntries cat E ∧
      (∀ k ∈ keysOf E, k ∉ keysOf tbl) ∧ (keysOf E).Nodup := by
  intro E
  induction E with
  | nil => intro tbl _; simp [attachCommands, mutEntries, keysOf]
  | cons nc rest ih =>
      intro tbl h
      obtain ⟨n, c⟩ := nc
      by_cases hmem : n ∈ keysOf tbl
      · simp [attachCommands, hmem] at h
      · rcases hr : attachCommands cat rest (tbl ++ [(n, prependPluginChecks cat c)]) with
          ⟨rest', tbl', e?⟩
        have hun : attachCommands cat ((n, c) :: rest) tbl =
            ((n, prependPluginChecks cat c) :: rest', tbl', e?) := by
          simp [attachCommands, hmem, hr]
        rw [hun] at h
        simp only at h
        have hrec := ih (tbl ++ [(n, prependPluginChecks cat c)])
        rw [hr] at hrec
        obtain ⟨h1, h2, h3, h4⟩ := hrec h
        rw [hun]
        refine ⟨?_, ?_, ?_, ?_⟩
        · simp only at h1
          simp [mutEntries] at h1 ⊢
          exact h1
        · simp only at h2
          simp only [h2, mutEntries, List.map_cons, List.append_assoc, List.singleton_append]
        · intro k hk
          simp only [keysOf, List.map_cons, List.mem_cons] at hk
          rcases hk with hk | hk
          · rw [hk]; exact hmem
          · have := h3 k (by simpa [keysOf] using hk)
            rw [keysOf_append] at this
            intro hc; exact this (List.mem_append_left _ hc)
        · simp only [keysOf, List.map_cons, List.nodup_cons]
          constructor
          · intro hc
            have := h3 n (by simpa [keysOf] using hc)
            rw [keysOf_append] at this
            exact this (List.mem_append_right _ (by simp [keysOf]))
          · simpa [keysOf] using h4

theorem dictRemove_append_of_not_mem {t1 : List (String × α)} {n : String}
    (h : n ∉ keysOf t1) (c : α) (t2 : List (String × α)) :
    dictRemove (t1 ++ (n, c) :: t2) n = t1 ++ t2 := by
  induction t1 with
  | nil => simp [dictRemove]
  | cons kv r ih =>
      obtain ⟨k, v⟩ := kv
      have hk : k ≠ n := by
        intro hc; exact h (by simp [keysOf, hc])
      have hr : n ∉ keysOf r := by
        intro hc; exact h (by simp [keysOf] at hc ⊢; exact Or.inr hc)
      simp [dictRemove, hk, ih hr]

/-- Removing an appended block of entries by their keys, in order,
restores the original table. -/
theorem removeKeys_append (t1 : List (String × α)) :
    ∀ (E : List (String × α)),
      (∀ k ∈ keysOf E, k ∉ keysOf t1) → (keysOf E).Nodup →
      removeKeys (t1 ++ E) (keysOf E) = t1 := by
  intro E
  induction E generalizing t1 with
  | nil => intro _ _; simp [removeKeys, keysOf]
  | cons nc rest ih =>
      intro hd hn
      obtain ⟨n, c⟩ := nc
      have hn1 : n ∉ keysOf t1 := hd n (by simp [keysOf])
      have step1 : dictRemove (t1 ++ (n, c) :: rest) n = t1 ++ rest :=
        dictRemove_append_of_not_mem hn1 c rest
      have hd' : ∀ k ∈ keysOf rest, k ∉ keysOf t1 := by
        intro k hk; exact hd k (by simp [keysOf] at hk ⊢; exact Or.inr hk)
      have hn' : (keysOf rest).Nodup := by
        simpa [keysOf] using hn.of_cons
      calc removeKeys (t1 ++ (n, c) :: rest) (keysOf ((n, c) :: rest))
          = removeKeys (t1 ++ rest) (keysOf rest) := by
            simp [removeKeys, keysOf, step1]
        _ = t1 := ih t1 hd' hn'

/-- Removing an appended block of checks, one first-occurrence removal
per appended check in order, restores the original sequence. -/
theorem removeChecks_append (H : List Check) :
    ∀ (G : List Check), (∀ g ∈ G, g ∉ H) → removeChecks (H ++ G) G = H := by
  intro G
  induction G generalizing H with
  | nil => intro _; simp [removeChecks]
  | cons g rest ih =>
      intro hg
      have h1 : (H ++ g :: rest).erase g = H ++ rest := by
        rw [List.erase_append_right _ (hg g (by simp))]
        simp
      calc removeChecks (H ++ g :: rest) (g :: rest)
          = removeChecks (H ++ rest) rest := by simp [removeChecks, h1]
        _ = H := ih H (fun x hx => hg x (by simp [hx]))

theorem removeChecks_append_lists (tbl : List Check) (a b : List Check) :
    removeChecks tbl (a ++ b) = removeChecks (removeChecks tbl a) b := by
  simp [removeChecks]

theorem startLoops_ok :
    ∀ L : List Loop, (startLoops L).2 = none →
      (startLoops L).1 = L.map (fun l => { l with running := true }) ∧
      ∀ l ∈ L, l.running = false := by
  intro L
  induction L with
  | nil => intro _; simp [startLoops]
  | cons l rest ih =>
      intro h
      by_cases hr : l.running
      · simp [startLoops, hr] at h
      · rcases hs : startLoops rest with ⟨rest', e?⟩
        rw [startLoops, if_neg hr, hs] at h
        simp only at h
        rw [hs] at ih
        obtain ⟨h1, h2⟩ := ih h
        constructor
        · simp only [startLoops, if_neg hr, hs, List.map_cons]
          simp only at h1
          rw [h1]
        · intro x hx
          rw [List.mem_cons] at hx
          rcases hx with hx | hx
          · rw [hx]; simpa using hr
          · exact h2 x hx

theorem listenerInsert_fresh {tbl : List (String × List Callable)} {ev : String}
    (h : ev ∉ keysOf tbl) (f : Callable) :
    listenerInsert tbl ev f = tbl ++ [(ev, [f])] := by
  induction tbl with
  | nil => simp [listenerInsert]
  | cons efs r ih =>
      obtain ⟨e, fs⟩ := efs
      have he : e ≠ ev := by intro hc; exact h (by simp [keysOf, hc])
      have hr : ev ∉ keysOf r := by
        intro hc; exact h (by simp [keysOf] at hc ⊢; exact Or.inr hc)
      simp [listenerInsert, he, ih hr]

theorem listenerInsert_at {t1 : List (String × List Callable)} {ev : String}
    (h : ev ∉ keysOf t1) (fs : List Callable) (t2 : List (String × List Callable))
    (f : Callable) :
    listenerInsert (t1 ++ (ev, fs) :: t2) ev f = t1 ++ (ev, fs ++ [f]) :: t2 := by
  induction t1 with
  | nil => simp [listenerInsert]
  | cons efs r ih =>
      obtain ⟨e, gs⟩ := efs
      have he : e ≠ ev := by intro hc; exact h (by simp [keysOf, hc])
      have hr : ev ∉ keysOf r := by
        intro hc; exact h (by simp [keysOf] at hc ⊢; exact Or.inr hc)
      simp [listenerInsert, he, ih hr]

theorem foldl_listenerInsert_at {t1 : List (String × List Callable)} {ev : String}
    (h : ev ∉ keysOf t1) (t2 : List (String × List Callable)) :
    ∀ (gs fs : List Callable),
      gs.foldl (fun t f => listenerInsert t ev f) (t1 ++ (ev, fs) :: t2) =
        t1 ++ (ev, fs ++ gs) :: t2 := by
  intro gs
  induction gs with
  | nil => intro fs; simp
  | cons g gs ih =>
      intro fs
      calc (g :: gs).foldl (fun t f => listenerInsert t ev f) (t1 ++ (ev, fs) :: t2)
          = gs.foldl (fun t f => listenerInsert t ev f) (t1 ++ (ev, fs ++ [g]) :: t2) := by
            simp [listenerInsert_at h]
        _ = t1 ++ (ev, fs ++ g :: gs) :: t2 := by rw [ih]; simp

/-- Attaching a nonempty listener sequence under a fresh event appends
one new table entry holding exactly that sequence. -/
theorem attach_event {tbl : List (String × List Callable)} {ev : String}
    (h : ev ∉ keysOf tbl) (fs : List Callable) (hne : fs ≠ []) :
    fs.foldl (fun t f => listenerInsert t ev f) tbl = tbl ++ [(ev, fs)] := by
  cases fs with
  | nil => exact absurd rfl hne
  | cons g gs =>
      calc (g :: gs).foldl (fun t f => listenerInsert t ev f) tbl
          = gs.foldl (fun t f => listenerInsert t ev f) (tbl ++ (ev, [g]) :: []) := by
            simp [listenerInsert_fresh h]
        _ = tbl ++ (ev, [g] ++ gs) :: [] := foldl_listenerInsert_at h [] gs [g]
        _ = tbl ++ [(ev, g :: gs)] := by simp

/-- The listener attach loop of `load` on fresh, mutually distinct
events appends one table entry per nonempty registered sequence. -/
theorem attachListeners_fresh :
    ∀ (Ls tbl : List (String × List Callable)),
      (keysOf Ls).Nodup → (∀ e ∈ keysOf Ls, e ∉ keysOf tbl) →
      attachListeners tbl Ls = tbl ++ Ls.filter (fun x => !x.2.isEmpty) := by
  intro Ls
  induction Ls with
  | nil => intro tbl _ _; simp [attachListeners]
  | cons efs rest ih =>
      intro tbl hn hf
      obtain ⟨e, fs⟩ := efs
      have he : e ∉ keysOf tbl := hf e (by simp [keysOf])
      have hn' : (keysOf rest).Nodup := by simpa [keysOf] using hn.of_cons
      have hrestk : e ∉ keysOf rest := by
        simp only [keysOf, List.map_cons, List.nodup_cons] at hn
        simpa [keysOf] using hn.1
      cases hfs : fs.isEmpty
      · have hne : fs ≠ [] := by
          intro hc; rw [hc] at hfs; simp at hfs
        have hf' : ∀ x ∈ keysOf rest, x ∉ keysOf (tbl ++ [(e, fs)]) := by
          intro x hx
          rw [keysOf_append]
          intro hc
          rcases List.mem_append.mp hc with hc | hc
          · exact hf x (by simp [keysOf] at hx ⊢; exact Or.inr hx) hc
          · simp [keysOf] at hc
            rw [hc] at hx
            exact hrestk hx
        calc attachListeners tbl ((e, fs) :: rest)
            = attachListeners (tbl ++ [(e, fs)]) rest := by
              simp only [attachListeners, List.foldl_cons]
              rw [attach_event he fs hne]
          _ = tbl ++ [(e, fs)] ++ rest.filter (fun x => !x.2.isEmpty) := ih _ hn' hf'
          _ = tbl ++ ((e, fs) :: rest).filter (fun x => !x.2.isEmpty) := by
              simp [List.filter_cons, hfs]
      · have hfse : fs = [] := by
          cases fs with
          | nil => rfl
          | cons a b => simp at hfs
        subst hfse
        have hf' : ∀ x ∈ keysOf rest, x ∉ keysOf tbl := by
          intro x hx
          exact hf x (by simp [keysOf] at hx ⊢; exact Or.inr hx)
        calc attachListeners tbl ((e, []) :: rest)
            = attachListeners tbl rest := by
              simp only [attachListeners, List.foldl_cons, List.foldl_nil]
          _ = tbl ++ rest.filter (fun x => !x.2.isEmpty) := ih tbl hn' hf'
          _ = tbl ++ ((e, ([] : List Callable)) :: rest).filter (fun x => !x.2.isEmpty) := by
              simp [List.filter_cons]

theorem listenerRemove_absent {tbl : List (String × List Callable)} {ev : String}
    (h : ev ∉ keysOf tbl) (f : Callable) :
    listenerRemove tbl ev f = tbl := by
  induction tbl with
  | nil => simp [listenerRemove]
  | cons efs r ih =>
      obtain ⟨e, fs⟩ := efs
      have he : e ≠ ev := by intro hc; exact h (by simp [keysOf, hc])
      have hr : ev ∉ keysOf r := by
        intro hc; exact h (by simp [keysOf] at hc ⊢; exact Or.inr hc)
      simp [listenerRemove, he, ih hr]

theorem listenerRemove_at {t1 : List (String × List Callable)} {ev : String}
    (h : ev ∉ keysOf t1) (fs : List Callable) (t2 : List (String × List Callable))
    (f : Callable) :
    listenerRemove (t1 ++ (ev, fs) :: t2) ev f =
      t1 ++ (if (fs.erase f).isEmpty then t2 else (ev, fs.erase f) :: t2) := by
  induction t1 with
  | nil => simp [listenerRemove]
  | cons efs r ih =>
      obtain ⟨e, gs⟩ := efs
      have he : e ≠ ev := by intro hc; exact h (by simp [keysOf, hc])
      have hr : ev ∉ keysOf r := by
        intro hc; exact h (by simp [keysOf] at hc ⊢; exact Or.inr hc)
      simp only [List.cons_append, listenerRemove, if_neg he, List.append_eq]
      rw [ih hr]

/-- Detaching a nonempty listener sequence that sits as its own table
entry removes exactly that entry. -/
theorem detach_event {t1 : List (String × List Callable)} {ev : String}
    (h : ev ∉ keysOf t1) (t2 : List (String × List Callable)) :
    ∀ (fs : List Callable), fs ≠ [] →
      fs.foldl (fun t f => listenerRemove t ev f) (t1 ++ (ev, fs) :: t2) = t1 ++ t2 := by
  intro fs
  induction fs with
  | nil => intro hc; exact absurd rfl hc
  | cons f gs ih =>
      intro _
      have h1 : listenerRemove (t1 ++ (ev, f :: gs) :: t2) ev f =
          t1 ++ (if gs.isEmpty then t2 else (ev, gs) :: t2) := by
        rw [listenerRemove_at h]
        simp [List.erase_cons_head]
      cases hgs : gs.isEmpty
      · have hne : gs ≠ [] := by intro hc; rw [hc] at hgs; simp at hgs
        calc (f :: gs).foldl (fun t f => listenerRemove t ev f) (t1 ++ (ev, f :: gs) :: t2)
            = gs.foldl (fun t f => listenerRemove t ev f) (t1 ++ (ev, gs) :: t2) := by
              simp only [List.foldl_cons, h1, hgs]
              rfl
          _ = t1 ++ t2 := ih hne
      · have hgse : gs = [] := by
          cases gs with
          | nil => rfl
          | cons a b => simp at hgs
        subst hgse
        simp only [List.foldl_cons, h1, hgs, List.foldl_nil]
        rfl

theorem detach_event_absent {tbl : List (String × List Callable)} {ev : String}
    (h : ev ∉ keysOf tbl) :
    ∀ (fs : List Callable),
      fs.foldl (fun t f => listenerRemove t ev f) tbl = tbl := by
  intro fs
  induction fs with
  | nil => simp
  | cons f gs ih => simp only [List.foldl_cons, listenerRemove_absent h, ih]

/-- The listener detach loop of `unload` removes exactly the block that
the attach loop appended, restoring the original table. -/
theorem detachListeners_restore :
    ∀ (Ls tbl : List (String × List Callable)),
      (keysOf Ls).Nodup → (∀ e ∈ keysOf Ls, e ∉ keysOf tbl) →
      detachListeners (tbl ++ Ls.filter (fun x => !x.2.isEmpty)) Ls = tbl := by
  intro Ls
  induction Ls with
  | nil => intro tbl _ _; simp [detachListeners]
  | cons efs rest ih =>
      intro tbl hn hf
      obtain ⟨e, fs⟩ := efs
      have he : e ∉ keysOf tbl := hf e (by simp [keysOf])
      have hn' : (keysOf rest).Nodup := by simpa [keysOf] using hn.of_cons
      have hrestk : e ∉ keysOf rest := by
        simp only [keysOf, List.map_cons, List.nodup_cons] at hn
        simpa [keysOf] using hn.1
      have hf' : ∀ x ∈ keysOf rest, x ∉ keysOf tbl := by
        intro x hx
        exact hf x (by simp [keysOf] at hx ⊢; exact Or.inr hx)
      cases hfs : fs.isEmpty
      · have hne : fs ≠ [] := by intro hc; rw [hc] at hfs; simp at hfs
        calc detachListeners (tbl ++ ((e, fs) :: rest).filter (fun x => !x.2.isEmpty))
              ((e, fs) :: rest)
            = detachListeners
                (fs.foldl (fun t f => listenerRemove t e f)
                  (tbl ++ (e, fs) :: rest.filter (fun x => !x.2.isEmpty))) rest := by
              simp only [List.filter_cons, hfs]
              rfl
          _ = detachListeners (tbl ++ rest.filter (fun x => !x.2.isEmpty)) rest := by
              rw [detach_event he _ fs hne]
          _ = tbl := ih tbl hn' hf'
      · have hfse : fs = [] := by
          cases fs with
          | nil => rfl
          | cons a b => simp at hfs
        subst hfse
        calc detachListeners (tbl ++ ((e, ([] : List Callable)) :: rest).filter
              (fun x => !x.2.isEmpty)) ((e, ([] : List Callable)) :: rest)
            = detachListeners (tbl ++ rest.filter (fun x => !x.2.isEmpty)) rest := by
              simp only [List.filter_cons]
              rfl
          _ = tbl := ih tbl hn' hf'

/-- The attach loop of `load` restricted to one event: insert each
callable of the sequence under that event. -/
def attachE (tbl : List (String × List Callable)) (e : String) (L : List Callable) :
    List (String × List Callable) :=
  L.foldl (fun t f => listenerInsert t e f) tbl

/-- The detach loop of `unload` restricted to one event. -/
def detachE (tbl : List (String × List Callable)) (e : String) (L : List Callable) :
    List (String × List Callable) :=
  L.foldl (fun t f => listenerRemove t e f) tbl

theorem listenerInsert_cons_ne {k e : String} (hk : k ≠ e) (fs : List Callable)
    (r : List (String × List Callable)) (f : Callable) :
    listenerInsert ((k, fs) :: r) e f = (k, fs) :: listenerInsert r e f := by
  simp [listenerInsert, hk]

theorem listenerRemove_cons_ne {k e : String} (hk : k ≠ e) (fs : List Callable)
    (r : List (String × List Callable)) (f : Callable) :
    listenerRemove ((k, fs) :: r) e f = (k, fs) :: listenerRemove r e f := by
  simp [listenerRemove, hk]

theorem attachE_cons_ne {k e : String} (hk : k ≠ e) (fs : List Callable) :
    ∀ (L : List Callable) (r : List (String × List Callable)),
      attachE ((k, fs) :: r) e L = (k, fs) :: attachE r e L := by
  intro L
  induction L with
  | nil => intro r; rfl
  | cons f L' ih =>
      intro r
      calc attachE ((k, fs) :: r) e (f :: L')
          = attachE (listenerInsert ((k, fs) :: r) e f) e L' := rfl
        _ = attachE ((k, fs) :: listenerInsert r e f) e L' := by
            rw [listenerInsert_cons_ne hk]
        _ = (k, fs) :: attachE (listenerInsert r e f) e L' := ih _
        _ = (k, fs) :: attachE r e (f :: L') := rfl

theorem detachE_cons_ne {k e : String} (hk : k ≠ e) (fs : List Callable) :
    ∀ (L : List Callable) (r : List (String × List Callable)),
      detachE ((k, fs) :: r) e L = (k, fs) :: detachE r e L := by
  intro L
  induction L with
  | nil => intro r; rfl
  | cons f L' ih =>
      intro r
      calc detachE ((k, fs) :: r) e (f :: L')
          = detachE (listenerRemove ((k, fs) :: r) e f) e L' := rfl
        _ = detachE ((k, fs) :: listenerRemove r e f) e L' := by
            rw [listenerRemove_cons_ne hk]
        _ = (k, fs) :: detachE (listenerRemove r e f) e L' := ih _
        _ = (k, fs) :: detachE r e (f :: L') := rfl

/-- Detaching a sequence that was appended onto a nonempty pre-existing
sequence under the same event removes exactly the appended block,
keeping the event's entry with its original sequence. -/
theorem detach_event_keep {t1 : List (String × List Callable)} {ev : String}
    (h : ev ∉ keysOf t1) (t2 : List (String × List Callable)) :
    ∀ (L fs : List Callable), fs ≠ [] → (∀ f ∈ L, f ∉ fs) →
      L.foldl (fun t f => listenerRemove t ev f) (t1 ++ (ev, fs ++ L) :: t2)
        = t1 ++ (ev, fs) :: t2 := by
  intro L
  induction L with
  | nil => intro fs _ _; simp
  | cons f L' ih =>
      intro fs hfs hfresh
      have h1 : listenerRemove (t1 ++ (ev, fs ++ f :: L') :: t2) ev f
          = t1 ++ (ev, fs ++ L') :: t2 := by
        rw [listenerRemove_at h]
        have he : (fs ++ f :: L').erase f = fs ++ L' := by
          rw [List.erase_append_right _ (hfresh f (by simp))]
          simp
        have hne : ((fs ++ L').isEmpty) = false := by
          cases fs with
          | nil => exact absurd rfl hfs
          | cons a b => simp
        rw [he, hne]
        simp
      calc (f :: L').foldl (fun t f => listenerRemove t ev f) (t1 ++ (ev, fs ++ f :: L') :: t2)
          = L'.foldl (fun t f => listenerRemove t ev f) (t1 ++ (ev, fs ++ L') :: t2) := by
            rw [List.foldl_cons, h1]
        _ = t1 ++ (ev, fs) :: t2 := ih fs hfs (fun x hx => hfresh x (by simp [hx]))

/-- Attaching then detaching one event's sequence restores the table,
whether the event was absent beforehand or already present with a
nonempty sequence not containing any of the attached callables. -/
theorem single_event_round_trip (e : String) (L : List Callable) :
    ∀ tbl : List (String × List Callable),
      (∀ H, dictGet tbl e = some H → H ≠ [] ∧ ∀ f ∈ L, f ∉ H) →
      detachE (attachE tbl e L) e L = tbl := by
  intro tbl
  induction tbl with
  | nil =>
      intro _
      cases hL : L with
      | nil => rfl
      | cons f L' =>
          have h1 : attachE [] e (f :: L') = [] ++ [(e, f :: L')] :=
            attach_event (by simp [keysOf]) _ (by simp)
          rw [h1]
          exact @detach_event [] e (by simp [keysOf]) [] (f :: L') (by simp)
  | cons kv r ih =>
      intro hfresh
      obtain ⟨k, fs⟩ := kv
      by_cases hk : k = e
      · subst hk
        obtain ⟨hfs, hLf⟩ := hfresh fs (by simp [dictGet])
        have h1 : attachE ((k, fs) :: r) k L = [] ++ (k, fs ++ L) :: r := by
          have := @foldl_listenerInsert_at [] k (by simp [keysOf]) r L fs
          simpa [attachE] using this
        rw [h1]
        have := @detach_event_keep [] k (by simp [keysOf]) r L fs hfs hLf
        simpa [detachE] using this
      · have hk' : k ≠ e := hk
        rw [attachE_cons_ne hk', detachE_cons_ne hk']
        have hr : ∀ H, dictGet r e = some H → H ≠ [] ∧ ∀ f ∈ L, f ∉ H := by
          intro H hH
          exact hfresh H (by rw [dictGet, if_neg hk']; exact hH)
        rw [ih hr]

theorem ins_rem_comm {e e' : String} (hne : e ≠ e') (g f : Callable) :
    ∀ tbl : List (String × List Callable),
      listenerRemove (listenerInsert tbl e' g) e f
        = listenerInsert (listenerRemove tbl e f) e' g := by
  intro tbl
  induction tbl with
  | nil =>
      simp [listenerInsert, listenerRemove, Ne.symm hne]
  | cons kv r ih =>
      obtain ⟨k, fs⟩ := kv
      by_cases hk' : k = e'
      · subst hk'
        have hke : k ≠ e := Ne.symm hne
        rw [listenerInsert, if_pos rfl, listenerRemove_cons_ne hke,
          listenerRemove_cons_ne hke, listenerInsert, if_pos rfl]
      · by_cases hke : k = e
        · subst hke
          rw [listenerInsert_cons_ne hk', listenerRemove, if_pos rfl,
            listenerRemove, if_pos rfl]
          cases hemp : (fs.erase f).isEmpty
          · simp only [hemp, Bool.false_eq_true, if_false]
            rw [listenerInsert_cons_ne hk']
          · simp only [hemp, if_true]
        · rw [listenerInsert_cons_ne hk', listenerRemove_cons_ne hke,
            listenerRemove_cons_ne hke, listenerInsert_cons_ne hk', ih]

theorem rem_attachE_comm {e e' : String} (hne : e ≠ e') (f : Callable) :
    ∀ (gs : List Callable) (tbl : List (String × List Callable)),
      listenerRemove (attachE tbl e' gs) e f = attachE (listenerRemove tbl e f) e' gs := by
  intro gs
  induction gs with
  | nil => intro tbl; rfl
  | cons g gs' ih =>
      intro tbl
      calc listenerRemove (attachE tbl e' (g :: gs')) e f
          = listenerRemove (attachE (listenerInsert tbl e' g) e' gs') e f := rfl
        _ = attachE (listenerRemove (listenerInsert tbl e' g) e f) e' gs' := ih _
        _ = attachE (listenerInsert (listenerRemove tbl e f) e' g) e' gs' := by
            rw [ins_rem_comm hne]
        _ = attachE (listenerRemove tbl e f) e' (g :: gs') := rfl

theorem rem_attachLs_comm {e : String} (f : Callable) :
    ∀ (Ls tbl : List (String × List Callable)), e ∉ keysOf Ls →
      listenerRemove (attachListeners tbl Ls) e f
        = attachListeners (listenerRemove tbl e f) Ls := by
  intro Ls
  induction Ls with
  | nil => intro tbl _; rfl
  | cons evL rest ih =>
      intro tbl h
      obtain ⟨e'', L''⟩ := evL
      have hne : e ≠ e'' := by
        intro hc; exact h (by simp [keysOf, hc])
      have hrest : e ∉ keysOf rest := by
        intro hc; exact h (by simp [keysOf] at hc ⊢; exact Or.inr hc)
      calc listenerRemove (attachListeners tbl ((e'', L'') :: rest)) e f
          = listenerRemove (attachListeners (attachE tbl e'' L'') rest) e f := rfl
        _ = attachListeners (listenerRemove (attachE tbl e'' L'') e f) rest := ih _ hrest
        _ = attachListeners (attachE (listenerRemove tbl e f) e'' L'') rest := by
            rw [rem_attachE_comm hne]
        _ = attachListeners (listenerRemove tbl e f) ((e'', L'') :: rest) := rfl

theorem detachE_attachLs_comm {e : String} {Ls : List (String × List Callable)}
    (h : e ∉ keysOf Ls) :
    ∀ (L : List Callable) (tbl : List (String × List Callable)),
      detachE (attachListeners tbl Ls) e L = attachListeners (detachE tbl e L) Ls := by
  intro L
  induction L with
  | nil => intro tbl; rfl
  | cons f L' ih =>
      intro tbl
      calc detachE (attachListeners tbl Ls) e (f :: L')
          = detachE (listenerRemove (attachListeners tbl Ls) e f) e L' := rfl
        _ = detachE (attachListeners (listenerRemove tbl e f) Ls) e L' := by
            rw [rem_attachLs_comm f Ls tbl h]
        _ = attachListeners (detachE (listenerRemove tbl e f) e L') Ls := ih _
        _ = attachListeners (detachE tbl e (f :: L')) Ls := rfl

/-- The listener round trip in full generality: attaching every
registered listener and then detaching them restores the host's
listener table exactly, also when the host already held its own
listeners under the same event names — provided none of the piece's
callables was already registered under its event and no pre-existing
sequence under a piece event is empty. -/
theorem listeners_round_trip :
    ∀ (Ls tbl : List (String × List Callable)), (keysOf Ls).Nodup →
      (∀ evL ∈ Ls, ∀ H, dictGet tbl evL.1 = some H → H ≠ [] ∧ ∀ f ∈ evL.2, f ∉ H) →
      detachListeners (attachListeners tbl Ls) Ls = tbl := by
  intro Ls
  induction Ls with
  | nil => intro tbl _ _; rfl
  | cons evL rest ih =>
      intro tbl hn hf
      obtain ⟨e, L⟩ := evL
      have hrest : e ∉ keysOf rest := by
        simp only [keysOf, List.map_cons, List.nodup_cons] at hn
        simpa [keysOf] using hn.1
      have hn' : (keysOf rest).Nodup := by simpa [keysOf] using hn.of_cons
      calc detachListeners (attachListeners tbl ((e, L) :: rest)) ((e, L) :: rest)
          = detachListeners
              (detachE (attachListeners (attachE tbl e L) rest) e L) rest := rfl
        _ = detachListeners
              (attachListeners (detachE (attachE tbl e L) e L) rest) rest := by
            rw [detachE_attachLs_comm hrest]
        _ = detachListeners (attachListeners tbl rest) rest := by
            rw [single_event_round_trip e L tbl (hf (e, L) (by simp))]
        _ = tbl := ih tbl hn' (fun x hx => hf x (by simp [hx]))

/-- The piece state a successful `load` produces: `_bot` recorded, every
registered entry's check list rebound to category checks followed by its
own, every loop running; all other fields untouched. -/
def pLoaded (p : Piece) (b : Bot) : Piece :=
  { p with
      bot := some b.botId,
      commands := if b.isBotBase then mutEntries p.command_checks p.commands else p.commands,
      slash_commands := mutEntries p.slash_command_checks p.slash_commands,
      user_commands := mutEntries p.user_command_checks p.user_commands,
      message_commands := mutEntries p.message_command_checks p.message_commands,
      loops := p.loops.map fun l => { l with running := true } }

/-- The host state a successful `load` produces. -/
def bLoaded (p : Piece) (b : Bot) : Bot :=
  { b with
      commands :=
        if b.isBotBase then b.commands ++ mutEntries p.command_checks p.commands
        else b.commands,
      checks := if b.isBotBase then b.checks ++ p.global_command_checks else b.checks,
      once_checks :=
        if b.isBotBase then b.once_checks ++ p.global_command_once_checks.getD []
        else b.once_checks,
      slash_commands := b.slash_commands ++ mutEntries p.slash_command_checks p.slash_commands,
      user_commands := b.user_commands ++ mutEntries p.user_command_checks p.user_commands,
      message_commands :=
        b.message_commands ++ mutEntries p.message_command_checks p.message_commands,
      slash_checks :=
        b.slash_checks ++ p.global_application_command_checks ++ p.global_slash_command_checks,
      user_checks :=
        b.user_checks ++ p.global_application_command_checks ++ p.global_user_command_checks,
      message_checks :=
        b.message_checks ++ p.global_application_command_checks
          ++ p.global_message_command_checks,
      listeners := attachListeners b.listeners p.listeners,
      sync_scheduled := true }

/-- The host state `unload` produces when it runs to completion. -/
def bUnloaded (p : Piece) (b : Bot) : Bot :=
  { b with
      commands :=
        if b.isBotBase then removeKeys b.commands (keysOf p.commands) else b.commands,
      checks :=
        if b.isBotBase then removeChecks b.checks p.global_command_checks else b.checks,
      once_checks :=
        if b.isBotBase then removeChecks b.once_checks (p.global_command_once_checks.getD [])
        else b.once_checks,
      slash_commands := removeKeys b.slash_commands (keysOf p.slash_commands),
      user_commands := removeKeys b.user_commands (keysOf p.user_commands),
      message_commands := removeKeys b.message_commands (keysOf p.message_commands),
      slash_checks :=
        removeChecks (removeChecks b.slash_checks p.global_application_command_checks)
          p.global_slash_command_checks,
      user_checks :=
        removeChecks (removeChecks b.user_checks p.global_application_command_checks)
          p.global_user_command_checks,
      message_checks :=
        removeChecks (removeChecks b.message_checks p.global_application_command_checks)
          p.global_message_command_checks,
      listeners := detachListeners b.listeners p.listeners,
      sync_scheduled := true }

theorem step_none {r : Res} {f : Piece → Bot → Res} (h : (step r f).2 = none) :
    r.2 = none ∧ step r f = f r.1.1 r.1.2 := by
  rcases r with ⟨⟨p, b⟩, e?⟩
  cases e? with
  | none => exact ⟨rfl, rfl⟩
  | some e => simp [step] at h

theorem loadCmdPhase_ok (p : Piece) (b : Bot) (h : (loadCmdPhase p b).2 = none) :
    (loadCmdPhase p b).1.1 =
      { p with commands :=
          if b.isBotBase then mutEntries p.command_checks p.commands else p.commands } ∧
    (loadCmdPhase p b).1.2 =
      { b with
          commands :=
            if b.isBotBase then b.commands ++ mutEntries p.command_checks p.commands
            else b.commands,
          checks := if b.isBotBase then b.checks ++ p.global_command_checks else b.checks,
          once_checks :=
            if b.isBotBase then b.once_checks ++ p.global_command_once_checks.getD []
            else b.once_checks } ∧
    (b.isBotBase = true →
      (attachCommands p.command_checks p.commands b.commands).2.2 = none ∧
      p.global_command_once_checks ≠ none) := by
  by_cases hbb : b.isBotBase
  · rcases ha : attachCommands p.command_checks p.commands b.commands with ⟨E', T', e?⟩
    cases e? with
    | some e => simp [loadCmdPhase, hbb, ha] at h
    | none =>
        cases honce : p.global_command_once_checks with
        | none => simp [loadCmdPhase, hbb, ha, honce] at h
        | some l =>
            have hc := attachCommands_ok p.command_checks p.commands b.commands
            rw [ha] at hc
            obtain ⟨h1, h2, _, _⟩ := hc rfl
            simp only at h1 h2
            simp [loadCmdPhase, hbb, ha, honce, h1, h2]
  · simp only [Bool.not_eq_true] at hbb
    obtain ⟨bid, bb, bc, bch, bo, bs, bu, bm, bsc, buc, bmc, bl, bsy⟩ := b
    simp only at hbb
    subst hbb
    simp [loadCmdPhase]

theorem loadSlashPhase_ok (p : Piece) (b : Bot) (h : (loadSlashPhase p b).2 = none) :
    (loadSlashPhase p b).1.1 =
      { p with slash_commands := mutEntries p.slash_command_checks p.slash_commands } ∧
    (loadSlashPhase p b).1.2 =
      { b with
          slash_commands :=
            b.slash_commands ++ mutEntries p.slash_command_checks p.slash_commands,
          slash_checks := b.slash_checks ++ p.global_slash_command_checks } ∧
    (attachCommands p.slash_command_checks p.slash_commands b.slash_commands).2.2 = none := by
  rcases ha : attachCommands p.slash_command_checks p.slash_commands b.slash_commands with
    ⟨E', T', e?⟩
  cases e? with
  | some e => simp [loadSlashPhase, ha] at h
  | none =>
      have hc := attachCommands_ok p.slash_command_checks p.slash_commands b.slash_commands
      rw [ha] at hc
      obtain ⟨h1, h2, _, _⟩ := hc rfl
      simp only at h1 h2
      simp [loadSlashPhase, ha, h1, h2]

theorem loadUserPhase_ok (p : Piece) (b : Bot) (h : (loadUserPhase p b).2 = none) :
    (loadUserPhase p b).1.1 =
      { p with user_commands := mutEntries p.user_command_checks p.user_commands } ∧
    (loadUserPhase p b).1.2 =
      { b with
          user_commands := b.user_commands ++ mutEntries p.user_command_checks p.user_commands,
          user_checks := b.user_checks ++ p.global_user_command_checks } ∧
    (attachCommands p.user_command_checks p.user_commands b.user_commands).2.2 = none := by
  rcases ha : attachCommands p.user_command_checks p.user_commands b.user_commands with
    ⟨E', T', e?⟩
  cases e? with
  | some e => simp [loadUserPhase, ha] at h
  | none =>
      have hc := attachCommands_ok p.user_command_checks p.user_commands b.user_commands
      rw [ha] at hc
      obtain ⟨h1, h2, _, _⟩ := hc rfl
      simp only at h1 h2
      simp [loadUserPhase, ha, h1, h2]

theorem loadMsgPhase_ok (p : Piece) (b : Bot) (h : (loadMsgPhase p b).2 = none) :
    (loadMsgPhase p b).1.1 =
      { p with message_commands := mutEntries p.message_command_checks p.message_commands } ∧
    (loadMsgPhase p b).1.2 =
      { b with
          message_commands :=
            b.message_commands ++ mutEntries p.message_command_checks p.message_commands,
          message_checks := b.message_checks ++ p.global_message_command_checks } ∧
    (attachCommands p.message_command_checks p.message_commands b.message_commands).2.2
      = none := by
  rcases ha : attachCommands p.message_command_checks p.message_commands b.message_commands with
    ⟨E', T', e?⟩
  cases e? with
  | some e => simp [loadMsgPhase, ha] at h
  | none =>
      have hc := attachCommands_ok p.message_command_checks p.message_commands b.message_commands
      rw [ha] at hc
      obtain ⟨h1, h2, _, _⟩ := hc rfl
      simp only at h1 h2
      simp [loadMsgPhase, ha, h1, h2]

theorem loadAppAllPhase_eq (p : Piece) (b : Bot) (f : Piece → Bot → Res) :
    step (loadAppAllPhase p b) f =
      f p { b with
        slash_checks := b.slash_checks ++ p.global_application_command_checks,
        user_checks := b.user_checks ++ p.global_application_command_checks,
        message_checks := b.message_checks ++ p.global_application_command_checks } :=
  rfl

theorem loadTail_ok (p : Piece) (b : Bot) (h : (loadTail p b).2 = none) :
    (loadTail p b).1.1 =
      { p with loops := p.loops.map fun l => { l with running := true } } ∧
    (loadTail p b).1.2 =
      { b with
          listeners := attachListeners b.listeners p.listeners,
          sync_scheduled := true } ∧
    anyFails p.post_load_hooks = false ∧ ∀ l ∈ p.loops, l.running = false := by
  rcases hs : startLoops p.loops with ⟨L', e?⟩
  cases e? with
  | some e => simp [loadTail, hs] at h
  | none =>
      have hok := startLoops_ok p.loops
      rw [hs] at hok
      obtain ⟨h1, h2⟩ := hok rfl
      simp only at h1
      by_cases hpost : anyFails p.post_load_hooks = true
      · simp [loadTail, hs, hpost] at h
      · simp only [Bool.not_eq_true] at hpost
        refine ⟨?_, ?_, hpost, h2⟩
        · simp [loadTail, hs, hpost, h1]
        · simp [loadTail, hs, hpost]

set_option maxHeartbeats 1000000 in
/-- Full characterization of a successful `load`: the resulting piece
and host states, plus the success conditions of every fallible step. -/
theorem load_ok (p : Piece) (b : Bot) (h : (load p b).2 = none) :
    (load p b).1.1 = pLoaded p b ∧ (load p b).1.2 = bLoaded p b ∧
    anyFails p.pre_load_hooks = false ∧ anyFails p.post_load_hooks = false ∧
    (b.isBotBase = true →
      (attachCommands p.command_checks p.commands b.commands).2.2 = none ∧
      p.global_command_once_checks ≠ none) ∧
    (attachCommands p.slash_command_checks p.slash_commands b.slash_commands).2.2 = none ∧
    (attachCommands p.user_command_checks p.user_commands b.user_commands).2.2 = none ∧
    (attachCommands p.message_command_checks p.message_commands b.message_commands).2.2
      = none ∧
    (∀ l ∈ p.loops, l.running = false) := by
  by_cases hpre : anyFails p.pre_load_hooks = true
  · exfalso
    simp [load, hpre] at h
  simp only [Bool.not_eq_true] at hpre
  rcases ha2 : attachCommands p.slash_command_checks p.slash_commands b.slash_commands with
    ⟨E2, T2, e2?⟩
  rcases ha3 : attachCommands p.user_command_checks p.user_commands b.user_commands with
    ⟨E3, T3, e3?⟩
  rcases ha4 : attachCommands p.message_command_checks p.message_commands b.message_commands
    with ⟨E4, T4, e4?⟩
  rcases hs : startLoops p.loops with ⟨L', el?⟩
  by_cases hbb : b.isBotBase
  · rcases ha1 : attachCommands p.command_checks p.commands b.commands with ⟨E1, T1, e1?⟩
    cases e1? with
    | some e =>
        exfalso
        simp [load, step, loadCmdPhase, hpre, hbb, ha1] at h
    | none =>
    cases honce : p.global_command_once_checks with
    | none =>
        exfalso
        simp [load, step, loadCmdPhase, hpre, hbb, ha1, honce] at h
    | some oncel =>
    cases e2? with
    | some e =>
        exfalso
        simp [load, step, loadCmdPhase, loadAppAllPhase, loadSlashPhase, hpre, hbb, ha1,
          honce, ha2] at h
    | none =>
    cases e3? with
    | some e =>
        exfalso
        simp [load, step, loadCmdPhase, loadAppAllPhase, loadSlashPhase, loadUserPhase,
          hpre, hbb, ha1, honce, ha2, ha3] at h
    | none =>
    cases e4? with
    | some e =>
        exfalso
        simp [load, step, loadCmdPhase, loadAppAllPhase, loadSlashPhase, loadUserPhase,
          loadMsgPhase, hpre, hbb, ha1, honce, ha2, ha3, ha4] at h
    | none =>
    cases el? with
    | some e =>
        exfalso
        simp [load, step, loadCmdPhase, loadAppAllPhase, loadSlashPhase, loadUserPhase,
          loadMsgPhase, loadTail, hpre, hbb, ha1, honce, ha2, ha3, ha4, hs] at h
    | none =>
    by_cases hpost : anyFails p.post_load_hooks = true
    · exfalso
      simp [load, step, loadCmdPhase, loadAppAllPhase, loadSlashPhase, loadUserPhase,
        loadMsgPhase, loadTail, hpre, hbb, ha1, honce, ha2, ha3, ha4, hs, hpost] at h
    · simp only [Bool.not_eq_true] at hpost
      have hc1 := attachCommands_ok p.command_checks p.commands b.commands
      rw [ha1] at hc1
      obtain ⟨hE1, hT1, _, _⟩ := hc1 rfl
      have hc2 := attachCommands_ok p.slash_command_checks p.slash_commands b.slash_commands
      rw [ha2] at hc2
      obtain ⟨hE2, hT2, _, _⟩ := hc2 rfl
      have hc3 := attachCommands_ok p.user_command_checks p.user_commands b.user_commands
      rw [ha3] at hc3
      obtain ⟨hE3, hT3, _, _⟩ := hc3 rfl
      have hc4 := attachCommands_ok p.message_command_checks p.message_commands
        b.message_commands
      rw [ha4] at hc4
      obtain ⟨hE4, hT4, _, _⟩ := hc4 rfl
      have hsl := startLoops_ok p.loops
      rw [hs] at hsl
      obtain ⟨hL, hloops⟩ := hsl rfl
      simp only at hE1 hT1 hE2 hT2 hE3 hT3 hE4 hT4 hL
      refine ⟨?_, ?_, hpre, hpost, fun _ => ⟨by simp [ha1], by simp [honce]⟩,
        by simp [ha2], by simp [ha3], by simp [ha4], hloops⟩
      · simp [load, step, loadCmdPhase, loadAppAllPhase, loadSlashPhase, loadUserPhase,
          loadMsgPhase, loadTail, hpre, hbb, ha1, honce, ha2, ha3, ha4, hs, hpost,
          pLoaded, hE1, hE2, hE3, hE4, hL]
      · simp [load, step, loadCmdPhase, loadAppAllPhase, loadSlashPhase, loadUserPhase,
          loadMsgPhase, loadTail, hpre, hbb, ha1, honce, ha2, ha3, ha4, hs, hpost,
          bLoaded, hT1, hT2, hT3, hT4, honce]
  · simp only [Bool.not_eq_true] at hbb
    cases e2? with
    | some e =>
        exfalso
        simp [load, step, loadCmdPhase, loadAppAllPhase, loadSlashPhase, hpre, hbb,
          ha2] at h
    | none =>
    cases e3? with
    | some e =>
        exfalso
        simp [load, step, loadCmdPhase, loadAppAllPhase, loadSlashPhase, loadUserPhase,
          hpre, hbb, ha2, ha3] at h
    | none =>
    cases e4? with
    | some e =>
        exfalso
        simp [load, step, loadCmdPhase, loadAppAllPhase, loadSlashPhase, loadUserPhase,
          loadMsgPhase, hpre, hbb, ha2, ha3, ha4] at h
    | none =>
    cases el? with
    | some e =>
        exfalso
        simp [load, step, loadCmdPhase, loadAppAllPhase, loadSlashPhase, loadUserPhase,
          loadMsgPhase, loadTail, hpre, hbb, ha2, ha3, ha4, hs] at h
    | none =>
    by_cases hpost : anyFails p.post_load_hooks = true
    · exfalso
      simp [load, step, loadCmdPhase, loadAppAllPhase, loadSlashPhase, loadUserPhase,
        loadMsgPhase, loadTail, hpre, hbb, ha2, ha3, ha4, hs, hpost] at h
    · simp only [Bool.not_eq_true] at hpost
      have hc2 := attachCommands_ok p.slash_command_checks p.slash_commands b.slash_commands
      rw [ha2] at hc2
      obtain ⟨hE2, hT2, _, _⟩ := hc2 rfl
      have hc3 := attachCommands_ok p.user_command_checks p.user_commands b.user_commands
      rw [ha3] at hc3
      obtain ⟨hE3, hT3, _, _⟩ := hc3 rfl
      have hc4 := attachCommands_ok p.message_command_checks p.message_commands
        b.message_commands
      rw [ha4] at hc4
      obtain ⟨hE4, hT4, _, _⟩ := hc4 rfl
      have hsl := startLoops_ok p.loops
      rw [hs] at hsl
      obtain ⟨hL, hloops⟩ := hsl rfl
      simp only at hE2 hT2 hE3 hT3 hE4 hT4 hL
      refine ⟨?_, ?_, hpre, hpost, fun hc => by rw [hc] at hbb; exact absurd hbb (by simp),
        by simp [ha2], by simp [ha3], by simp [ha4], hloops⟩
      · simp [load, step, loadCmdPhase, loadAppAllPhase, loadSlashPhase, loadUserPhase,
          loadMsgPhase, loadTail, hpre, hbb, ha2, ha3, ha4, hs, hpost,
          pLoaded, hE2, hE3, hE4, hL]
      · simp [load, step, loadCmdPhase, loadAppAllPhase, loadSlashPhase, loadUserPhase,
          loadMsgPhase, loadTail, hpre, hbb, ha2, ha3, ha4, hs, hpost,
          bLoaded, hT2, hT3, hT4]

/-- `unload` run to completion: it succeeds whenever its hooks succeed
and (for a prefixed-command host) the call-once slot is readable, it
never touches the piece beyond stopping the loops, and it leaves the
host in the `bUnloaded` state. -/
theorem unload_spec (p : Piece) (b : Bot)
    (hpre : anyFails p.pre_unload_hooks = false)
    (hpost : anyFails p.post_unload_hooks = false)
    (honce : b.isBotBase = true → p.global_command_once_checks ≠ none) :
    (unload p b).2 = none ∧
    (unload p b).1.1 =
      { p with loops := p.loops.map fun l => { l with running := false } } ∧
    (unload p b).1.2 = bUnloaded p b := by
  by_cases hbb : b.isBotBase
  · cases ho : p.global_command_once_checks with
    | none => exact absurd ho (honce hbb)
    | some oncel =>
        refine ⟨?_, ?_, ?_⟩ <;>
          simp [unload, step, unloadCmdPhase, hpre, hpost, hbb, ho, bUnloaded]
  · simp only [Bool.not_eq_true] at hbb
    refine ⟨?_, ?_, ?_⟩ <;>
      simp [unload, step, unloadCmdPhase, hpre, hpost, hbb, bUnloaded]

theorem dictGet_append_right {t1 t2 : List (String × α)} {k : String}
    (h : k ∉ keysOf t1) : dictGet (t1 ++ t2) k = dictGet t2 k := by
  induction t1 with
  | nil => simp
  | cons kv r ih =>
      obtain ⟨k', v⟩ := kv
      have hk : k' ≠ k := by intro hc; exact h (by simp [keysOf, hc])
      have hr : k ∉ keysOf r := by
        intro hc; exact h (by simp [keysOf] at hc ⊢; exact Or.inr hc)
      simp [dictGet, hk, ih hr]

theorem dictGet_mutEntries (cat : List Check) (E : List (String × Command)) (k : String) :
    dictGet (mutEntries cat E) k = (dictGet E k).map (prependPluginChecks cat) := by
  induction E with
  | nil => simp [mutEntries, dictGet]
  | cons nc r ih =>
      obtain ⟨n, c⟩ := nc
      simp only [mutEntries] at ih ⊢
      by_cases hk : n = k <;> simp [dictGet, hk, ih]

theorem dictGet_some_mem_keys {E : List (String × α)} {k : String} {c : α}
    (h : dictGet E k = some c) : k ∈ keysOf E := by
  induction E with
  | nil => simp [dictGet] at h
  | cons kv r ih =>
      obtain ⟨k', v⟩ := kv
      by_cases hk : k' = k
      · simp [keysOf, hk]
      · rw [dictGet, if_neg hk] at h
        simp [keysOf]
        exact Or.inr (by simpa [keysOf] using ih h)

/-- After a successful namespace attach, looking an entry up on the host
or in the registry finds it with the category checks prepended. -/
theorem attach_lookup {cat : List Check} {E tbl : List (String × Command)}
    (hok : (attachCommands cat E tbl).2.2 = none) {n : String} {c : Command}
    (hg : dictGet E n = some c) :
    dictGet (tbl ++ mutEntries cat E) n = some { c with checks := cat ++ c.checks } ∧
    dictGet (mutEntries cat E) n = some { c with checks := cat ++ c.checks } := by
  obtain ⟨_, _, hdisj, _⟩ := attachCommands_ok cat E tbl hok
  have hmem : n ∉ keysOf tbl := hdisj n (dictGet_some_mem_keys hg)
  have hreg : dictGet (mutEntries cat E) n = some { c with checks := cat ++ c.checks } := by
    rw [dictGet_mutEntries, hg]
    simp [prependPluginChecks_eq]
  exact ⟨by rw [dictGet_append_right hmem, hreg], hreg⟩

/-- C1.  Check composition ordering: after a successful `load`, every
registered command entry — as installed on the host and as held in the
registry — carries the piece-wide category checks strictly before every
one of its pre-existing local checks, in order: its effective check list
is exactly the category checks followed by its original checks.  This
holds for the prefixed-command namespace (on a prefixed-command-capable
host) and for the slash, user and message namespaces. -/
theorem piece_wide_checks_precede_local_checks (p : Piece) (b : Bot)
    (h : (load p b).2 = none) :
    (∀ n c, dictGet p.slash_commands n = some c →
      dictGet ((load p b).1.2).slash_commands n
          = some { c with checks := p.slash_command_checks ++ c.checks } ∧
      dictGet ((load p b).1.1).slash_commands n
          = some { c with checks := p.slash_command_checks ++ c.checks }) ∧
    (∀ n c, dictGet p.user_commands n = some c →
      dictGet ((load p b).1.2).user_commands n
          = some { c with checks := p.user_command_checks ++ c.checks } ∧
      dictGet ((load p b).1.1).user_commands n
          = some { c with checks := p.user_command_checks ++ c.checks }) ∧
    (∀ n c, dictGet p.message_commands n = some c →
      dictGet ((load p b).1.2).message_commands n
          = some { c with checks := p.message_command_checks ++ c.checks } ∧
      dictGet ((load p b).1.1).message_commands n
          = some { c with checks := p.message_command_checks ++ c.checks }) ∧
    (b.isBotBase = true → ∀ n c, dictGet p.commands n = some c →
      dictGet ((load p b).1.2).commands n
          = some { c with checks := p.command_checks ++ c.checks } ∧
      dictGet ((load p b).1.1).commands n
          = some { c with checks := p.command_checks ++ c.checks }) := by
  obtain ⟨hP, hB, _, _, hcmd, hslash, huser, hmsg, _⟩ := load_ok p b h
  rw [hP, hB]
  refine ⟨?_, ?_, ?_, ?_⟩
  · intro n c hg
    obtain ⟨h1, h2⟩ := attach_lookup hslash hg
    exact ⟨by simpa [bLoaded] using h1, by simpa [pLoaded] using h2⟩
  · intro n c hg
    obtain ⟨h1, h2⟩ := attach_lookup huser hg
    exact ⟨by simpa [bLoaded] using h1, by simpa [pLoaded] using h2⟩
  · intro n c hg
    obtain ⟨h1, h2⟩ := attach_lookup hmsg hg
    exact ⟨by simpa [bLoaded] using h1, by simpa [pLoaded] using h2⟩
  · intro hbb n c hg
    obtain ⟨h1, h2⟩ := attach_lookup (hcmd hbb).1 hg
    exact ⟨by simpa [bLoaded, hbb] using h1, by simpa [pLoaded, hbb] using h2⟩

/-- Witness data for C1: a piece with one slash command carrying local
check `5` and slash-category check `9`, loaded on a fresh
interaction-only host. -/
def wC1cb : Callable := ⟨1, "cmd", true⟩

def wC1piece : Piece :=
  { initPiece 7 "wpiece" [] with
      slash_commands := [("c", { name := "c", callback := wC1cb, checks := [5], extras := [] })],
      slash_command_checks := [9] }

def wC1bot : Bot :=
  { botId := 42, isBotBase := false, commands := [], checks := [], once_checks := [],
    slash_commands := [], user_commands := [], message_commands := [],
    slash_checks := [], user_checks := [], message_checks := [], listeners := [],
    sync_scheduled := false }

theorem piece_wide_checks_precede_local_checks_witness :
    dictGet ((load wC1piece wC1bot).1.2).slash_commands "c"
        = some { name := "c", callback := wC1cb, checks := [9, 5], extras := [] } ∧
    dictGet ((load wC1piece wC1bot).1.1).slash_commands "c"
        = some { name := "c", callback := wC1cb, checks := [9, 5], extras := [] } :=
  (piece_wide_checks_precede_local_checks wC1piece wC1bot (by decide)).1 "c"
    { name := "c", callback := wC1cb, checks := [5], extras := [] } (by decide)

/-- C2 (amended).  Load/unload round-trip symmetry holds up to
aliasing: for a piece whose `load` succeeded (which already forces the
piece's command names to be fresh on the host) and whose unload hooks
succeed, `unload` on the loaded state succeeds, stops every loop `load`
started, and restores every host table — prefixed commands, plain and
call-once checks, slash/user/message commands, the three
application-command check sequences, and listeners — exactly to its
pre-load contents, provided the host's check tables did not already
contain the piece's registered check predicates and the host's listener
sequences under the piece's event names are nonempty and do not already
contain the piece's callables.  Hosts with their own listeners under
the same event names are covered.  Without the aliasing proviso the
frozen claim is false: see the counterexample, where first-occurrence
removal permutes an aliased table. -/
theorem load_unload_round_trip (p : Piece) (b : Bot)
    (h : (load p b).2 = none)
    (hpreU : anyFails p.pre_unload_hooks = false)
    (hpostU : anyFails p.post_unload_hooks = false)
    (hchk : b.isBotBase = true → ∀ c ∈ p.global_command_checks, c ∉ b.checks)
    (honcef : b.isBotBase = true →
      ∀ l, p.global_command_once_checks = some l → ∀ c ∈ l, c ∉ b.once_checks)
    (hslashf : ∀ c ∈ p.global_application_command_checks ++ p.global_slash_command_checks,
      c ∉ b.slash_checks)
    (huserf : ∀ c ∈ p.global_application_command_checks ++ p.global_user_command_checks,
      c ∉ b.user_checks)
    (hmsgf : ∀ c ∈ p.global_application_command_checks ++ p.global_message_command_checks,
      c ∉ b.message_checks)
    (hlisn : (keysOf p.listeners).Nodup)
    (hlisf : ∀ evL ∈ p.listeners, ∀ H ∈ (dictGet b.listeners evL.1).toList,
      H ≠ [] ∧ ∀ f ∈ evL.2, f ∉ H) :
    (unload (load p b).1.1 (load p b).1.2).2 = none ∧
    ((unload (load p b).1.1 (load p b).1.2).1.2).commands = b.commands ∧
    ((unload (load p b).1.1 (load p b).1.2).1.2).checks = b.checks ∧
    ((unload (load p b).1.1 (load p b).1.2).1.2).once_checks = b.once_checks ∧
    ((unload (load p b).1.1 (load p b).1.2).1.2).slash_commands = b.slash_commands ∧
    ((unload (load p b).1.1 (load p b).1.2).1.2).user_commands = b.user_commands ∧
    ((unload (load p b).1.1 (load p b).1.2).1.2).message_commands = b.message_commands ∧
    ((unload (load p b).1.1 (load p b).1.2).1.2).slash_checks = b.slash_checks ∧
    ((unload (load p b).1.1 (load p b).1.2).1.2).user_checks = b.user_checks ∧
    ((unload (load p b).1.1 (load p b).1.2).1.2).message_checks = b.message_checks ∧
    ((unload (load p b).1.1 (load p b).1.2).1.2).listeners = b.listeners ∧
    (∀ l ∈ ((unload (load p b).1.1 (load p b).1.2).1.1).loops, l.running = false) := by
  obtain ⟨hP, hB, _, _, hcmd, hslash, huser, hmsg, _⟩ := load_ok p b h
  rw [hP, hB]
  have hbb' : (bLoaded p b).isBotBase = b.isBotBase := rfl
  have honce' : (bLoaded p b).isBotBase = true →
      (pLoaded p b).global_command_once_checks ≠ none := by
    intro hbb
    rw [hbb'] at hbb
    exact (hcmd hbb).2
  obtain ⟨hU, hUp, hUb⟩ := unload_spec (pLoaded p b) (bLoaded p b)
    (by simpa [pLoaded] using hpreU) (by simpa [pLoaded] using hpostU) honce'
  rw [hU, hUp, hUb]
  refine ⟨rfl, ?_, ?_, ?_, ?_, ?_, ?_, ?_, ?_, ?_, ?_, ?_⟩
  · -- prefixed-command table
    by_cases hbb : b.isBotBase
    · obtain ⟨_, _, hdisj, hnd⟩ := attachCommands_ok _ _ _ (hcmd hbb).1
      simp only [bUnloaded, bLoaded, pLoaded, hbb, if_true]
      rw [keysOf_mutEntries]
      have hd' : ∀ k ∈ keysOf (mutEntries p.command_checks p.commands), k ∉ keysOf b.commands := by
        rw [keysOf_mutEntries]; exact hdisj
      have hn' : (keysOf (mutEntries p.command_checks p.commands)).Nodup := by
        rw [keysOf_mutEntries]; exact hnd
      have := removeKeys_append b.commands (mutEntries p.command_checks p.commands) hd' hn'
      rw [keysOf_mutEntries] at this
      exact this
    · simp only [Bool.not_eq_true] at hbb
      simp [bUnloaded, bLoaded, hbb]
  · -- plain prefixed-command checks
    by_cases hbb : b.isBotBase
    · simp only [bUnloaded, bLoaded, pLoaded, hbb, if_true]
      exact removeChecks_append b.checks p.global_command_checks (hchk hbb)
    · simp only [Bool.not_eq_true] at hbb
      simp [bUnloaded, bLoaded, hbb]
  · -- call-once prefixed-command checks
    by_cases hbb : b.isBotBase
    · cases ho : p.global_command_once_checks with
      | none => exact absurd ho ((hcmd hbb).2)
      | some l =>
          simp only [bUnloaded, bLoaded, pLoaded, hbb, if_true, ho, Option.getD_some]
          exact removeChecks_append b.once_checks l (honcef hbb l ho)
    · simp only [Bool.not_eq_true] at hbb
      simp [bUnloaded, bLoaded, hbb]
  · -- slash-command table
    obtain ⟨_, _, hdisj, hnd⟩ := attachCommands_ok _ _ _ hslash
    simp only [bUnloaded, bLoaded, pLoaded]
    rw [keysOf_mutEntries]
    have := removeKeys_append b.slash_commands (mutEntries p.slash_command_checks
      p.slash_commands) (by rw [keysOf_mutEntries]; exact hdisj)
      (by rw [keysOf_mutEntries]; exact hnd)
    rw [keysOf_mutEntries] at this
    exact this
  · -- user-command table
    obtain ⟨_, _, hdisj, hnd⟩ := attachCommands_ok _ _ _ huser
    simp only [bUnloaded, bLoaded, pLoaded]
    rw [keysOf_mutEntries]
    have := removeKeys_append b.user_commands (mutEntries p.user_command_checks
      p.user_commands) (by rw [keysOf_mutEntries]; exact hdisj)
      (by rw [keysOf_mutEntries]; exact hnd)
    rw [keysOf_mutEntries] at this
    exact this
  · -- message-command table
    obtain ⟨_, _, hdisj, hnd⟩ := attachCommands_ok _ _ _ hmsg
    simp only [bUnloaded, bLoaded, pLoaded]
    rw [keysOf_mutEntries]
    have := removeKeys_append b.message_commands (mutEntries p.message_command_checks
      p.message_commands) (by rw [keysOf_mutEntries]; exact hdisj)
      (by rw [keysOf_mutEntries]; exact hnd)
    rw [keysOf_mutEntries] at this
    exact this
  · -- slash checks (omnibus application checks plus slash-only checks)
    simp only [bUnloaded, bLoaded, pLoaded]
    rw [← removeChecks_append_lists, List.append_assoc]
    exact removeChecks_append b.slash_checks _ hslashf
  · -- user checks
    simp only [bUnloaded, bLoaded, pLoaded]
    rw [← removeChecks_append_lists, List.append_assoc]
    exact removeChecks_append b.user_checks _ huserf
  · -- message checks
    simp only [bUnloaded, bLoaded, pLoaded]
    rw [← removeChecks_append_lists, List.append_assoc]
    exact removeChecks_append b.message_checks _ hmsgf
  · -- listener table
    simp only [bUnloaded, bLoaded, pLoaded]
    refine listeners_round_trip p.listeners b.listeners hlisn ?_
    intro evL hev H hH
    exact hlisf evL hev H (Option.mem_toList.mpr (Option.mem_def.mpr hH))
  · -- every started loop is stopped
    intro l hl
    simp only [bUnloaded, pLoaded, List.mem_map] at hl
    obtain ⟨x, _, hx⟩ := hl
    rw [← hx]

/-- Witness data for C2: a piece with one slash command, one listener,
one loop, one check in every sequence (the call-once slot unset), loaded
onto an interaction-only host that already holds its own listener under
the piece's event name. -/
def wC2piece : Piece :=
  { initPiece 8 "wpiece2" [] with
      slash_commands :=
        [("sc", { name := "sc", callback := ⟨2, "sc", true⟩, checks := [5], extras := [] })],
      user_commands :=
        [("uc", { name := "uc", callback := ⟨3, "uc", true⟩, checks := [], extras := [] })],
      slash_command_checks := [9],
      global_application_command_checks := [12],
      global_slash_command_checks := [11],
      global_user_command_checks := [13],
      listeners := [("on_x", [⟨4, "f", true⟩])],
      loops := [⟨5, none, false⟩] }

def wC2bot : Bot :=
  { botId := 43, isBotBase := false, commands := [], checks := [], once_checks := [],
    slash_commands := [], user_commands := [], message_commands := [],
    slash_checks := [], user_checks := [], message_checks := [],
    listeners := [("on_x", [⟨9, "g", true⟩])],
    sync_scheduled := false }

theorem load_unload_round_trip_witness :
    (unload (load wC2piece wC2bot).1.1 (load wC2piece wC2bot).1.2).2 = none ∧
    ((unload (load wC2piece wC2bot).1.1 (load wC2piece wC2bot).1.2).1.2).commands
        = wC2bot.commands ∧
    ((unload (load wC2piece wC2bot).1.1 (load wC2piece wC2bot).1.2).1.2).checks
        = wC2bot.checks ∧
    ((unload (load wC2piece wC2bot).1.1 (load wC2piece wC2bot).1.2).1.2).once_checks
        = wC2bot.once_checks ∧
    ((unload (load wC2piece wC2bot).1.1 (load wC2piece wC2bot).1.2).1.2).slash_commands
        = wC2bot.slash_commands ∧
    ((unload (load wC2piece wC2bot).1.1 (load wC2piece wC2bot).1.2).1.2).user_commands
        = wC2bot.user_commands ∧
    ((unload (load wC2piece wC2bot).1.1 (load wC2piece wC2bot).1.2).1.2).message_commands
        = wC2bot.message_commands ∧
    ((unload (load wC2piece wC2bot).1.1 (load wC2piece wC2bot).1.2).1.2).slash_checks
        = wC2bot.slash_checks ∧
    ((unload (load wC2piece wC2bot).1.1 (load wC2piece wC2bot).1.2).1.2).user_checks
        = wC2bot.user_checks ∧
    ((unload (load wC2piece wC2bot).1.1 (load wC2piece wC2bot).1.2).1.2).message_checks
        = wC2bot.message_checks ∧
    ((unload (load wC2piece wC2bot).1.1 (load wC2piece wC2bot).1.2).1.2).listeners
        = wC2bot.listeners ∧
    (∀ l ∈ ((unload (load wC2piece wC2bot).1.1 (load wC2piece wC2bot).1.2).1.1).loops,
      l.running = false) :=
  load_unload_round_trip wC2piece wC2bot (by decide) (by decide) (by decide)
    (by decide) (by decide) (by decide) (by decide) (by decide) (by decide) (by decide)

/-- Counterexample data for C2: hosts that already contain the very
check predicate / listener callable the piece registers. -/
def wC2Xpiece : Piece :=
  { initPiece 18 "wp2x" [] with global_slash_command_checks := [5] }

def wC2Xbot : Bot :=
  { botId := 49, isBotBase := false, commands := [], checks := [], once_checks := [],
    slash_commands := [], user_commands := [], message_commands := [],
    slash_checks := [5, 6], user_checks := [], message_checks := [], listeners := [],
    sync_scheduled := false }

def wC2Yf : Callable := ⟨1, "f", true⟩

def wC2Ypiece : Piece :=
  { initPiece 19 "wp2y" [] with listeners := [("e", [wC2Yf])] }

def wC2Ybot : Bot :=
  { botId := 50, isBotBase := false, commands := [], checks := [], once_checks := [],
    slash_commands := [], user_commands := [], message_commands := [],
    slash_checks := [], user_checks := [], message_checks := [],
    listeners := [("e", [wC2Yf, ⟨2, "g", true⟩])],
    sync_scheduled := false }

/-- C2 counterexample.  The round trip is not exact for every host:
when the host's check table already contains the predicate the piece
registers (here check `5`, host table `[5, 6]`), `load` appends a
second occurrence and `unload`'s first-occurrence removal deletes the
pre-existing one, leaving `[6, 5]` — both `load` and `unload` completed
yet the table came back permuted.  A listener sequence that already
contains the piece's callable is permuted the same way. -/
theorem round_trip_permutes_aliased_host_tables :
    (load wC2Xpiece wC2Xbot).2 = none ∧
    (unload (load wC2Xpiece wC2Xbot).1.1 (load wC2Xpiece wC2Xbot).1.2).2 = none ∧
    ((unload (load wC2Xpiece wC2Xbot).1.1 (load wC2Xpiece wC2Xbot).1.2).1.2).slash_checks
        = [6, 5] ∧
    ((unload (load wC2Xpiece wC2Xbot).1.1 (load wC2Xpiece wC2Xbot).1.2).1.2).slash_checks
        ≠ wC2Xbot.slash_checks ∧
    (load wC2Ypiece wC2Ybot).2 = none ∧
    (unload (load wC2Ypiece wC2Ybot).1.1 (load wC2Ypiece wC2Ybot).1.2).2 = none ∧
    ((unload (load wC2Ypiece wC2Ybot).1.1 (load wC2Ypiece wC2Ybot).1.2).1.2).listeners
        ≠ wC2Ybot.listeners := by
  refine ⟨by decide, by decide, by decide, by decide, by decide, by decide, by decide⟩

/-- Input data for the C3 evidence theorem. -/
def wC3cb : Callable := ⟨6, "greet", true⟩

/-- C3 (evidence of a code bug).  The ownership round-trip the spec
describes does not happen: `Piece.command` registers the constructed
entry without ever stamping `extras["piece"]` (no registrar calls
`_apply_attrs`, and its `kwargs` are dropped), so `get_parent_piece` on
the freshly registered entry raises `LookupError` — exactly as it does
on an unregistered entry.  The last conjunct shows the dead
`_apply_attrs` helper would have produced an entry whose owner lookup
returns the registering piece, which is what the spec describes. -/
theorem registered_entry_has_no_owner_backref :
    (initPiece 7 "wp3" []).command (some "greet") [("attr", 1)] wC3cb
        = .ok ({ initPiece 7 "wp3" [] with
                   commands := [("greet", mkCommand wC3cb "greet")] },
               mkCommand wC3cb "greet") ∧
    get_parent_piece (mkCommand wC3cb "greet") = .error .lookupError ∧
    get_parent_piece { mkCommand wC3cb "greet" with
        extras := (initPiece 7 "wp3" []).applyAttrsExtras (mkCommand wC3cb "greet").extras }
      = .ok 7 := by
  refine ⟨?_, rfl, rfl⟩
  rfl

/-- A prefixed-command-capable host with empty tables, for the C4
evidence theorem. -/
def wC4bot : Bot :=
  { botId := 44, isBotBase := true, commands := [], checks := [], once_checks := [],
    slash_commands := [], user_commands := [], message_commands := [],
    slash_checks := [], user_checks := [], message_checks := [], listeners := [],
    sync_scheduled := false }

/-- C4 (evidence of a code bug).  `__init__` never assigns the slot
`_global_command_once_checks`, so registering a global call-once check
on any freshly constructed piece raises `AttributeError` instead of
appending the predicate — and even a plain `load` onto a
prefixed-command-capable host raises the same `AttributeError` when it
reaches the call-once attach step. -/
theorem global_command_check_once_raises_attribute_error :
    (∀ pid nm ex c, Piece.global_command_check_once (initPiece pid nm ex) c
        = .error .attributeError) ∧
    (load (initPiece 0 "wp4" []) wC4bot).2 = some .attributeError := by
  refine ⟨fun pid nm ex c => rfl, by decide⟩

theorem loadCmdPhase_bot (p : Piece) (b : Bot) :
    ((loadCmdPhase p b).1.1).bot = p.bot := by
  by_cases hbb : b.isBotBase
  · rcases ha : attachCommands p.command_checks p.commands b.commands with ⟨E, T, e?⟩
    cases e? <;> cases honce : p.global_command_once_checks <;>
      simp [loadCmdPhase, hbb, ha, honce]
  · simp only [Bool.not_eq_true] at hbb
    simp [loadCmdPhase, hbb]

theorem loadSlashPhase_bot (p : Piece) (b : Bot) :
    ((loadSlashPhase p b).1.1).bot = p.bot := by
  rcases ha : attachCommands p.slash_command_checks p.slash_commands b.slash_commands with
    ⟨E, T, e?⟩
  cases e? <;> simp [loadSlashPhase, ha]

theorem loadUserPhase_bot (p : Piece) (b : Bot) :
    ((loadUserPhase p b).1.1).bot = p.bot := by
  rcases ha : attachCommands p.user_command_checks p.user_commands b.user_commands with
    ⟨E, T, e?⟩
  cases e? <;> simp [loadUserPhase, ha]

theorem loadMsgPhase_bot (p : Piece) (b : Bot) :
    ((loadMsgPhase p b).1.1).bot = p.bot := by
  rcases ha : attachCommands p.message_command_checks p.message_commands b.message_commands
    with ⟨E, T, e?⟩
  cases e? <;> simp [loadMsgPhase, ha]

theorem loadTail_bot (p : Piece) (b : Bot) :
    ((loadTail p b).1.1).bot = p.bot := by
  rcases hs : startLoops p.loops with ⟨L, e?⟩
  cases e? <;> by_cases hpost : anyFails p.post_load_hooks = true <;>
    simp [loadTail, hs, hpost]

theorem step_bot {r : Res} {f : Piece → Bot → Res} {v : Option Nat}
    (hr : (r.1.1).bot = v) (hf : ∀ p b, ((f p b).1.1).bot = p.bot) :
    ((step r f).1.1).bot = v := by
  rcases r with ⟨⟨p, b⟩, e?⟩
  cases e? with
  | none => exact (hf p b).trans hr
  | some e => exact hr

theorem load_bot_set (p : Piece) (b : Bot) : ((load p b).1.1).bot = some b.botId := by
  have F4 : ∀ q c, ((step (loadMsgPhase q c) loadTail).1.1).bot = q.bot :=
    fun q c => step_bot (loadMsgPhase_bot q c) loadTail_bot
  have F3 : ∀ q c,
      ((step (loadUserPhase q c) fun q c => step (loadMsgPhase q c) loadTail).1.1).bot
        = q.bot :=
    fun q c => step_bot (loadUserPhase_bot q c) F4
  have F2 : ∀ q c,
      ((step (loadSlashPhase q c) fun q c =>
        step (loadUserPhase q c) fun q c => step (loadMsgPhase q c) loadTail).1.1).bot
        = q.bot :=
    fun q c => step_bot (loadSlashPhase_bot q c) F3
  have F1 : ∀ q c,
      ((step (loadAppAllPhase q c) fun q c =>
        step (loadSlashPhase q c) fun q c =>
        step (loadUserPhase q c) fun q c => step (loadMsgPhase q c) loadTail).1.1).bot
        = q.bot :=
    fun q c => step_bot (rfl) F2
  by_cases hpre : anyFails p.pre_load_hooks = true
  · simp [load, hpre]
  · simp only [Bool.not_eq_true] at hpre
    have : load p b =
        step (loadCmdPhase { p with bot := some b.botId } b) fun q c =>
        step (loadAppAllPhase q c) fun q c =>
        step (loadSlashPhase q c) fun q c =>
        step (loadUserPhase q c) fun q c => step (loadMsgPhase q c) loadTail := by
      simp [load, hpre]
    rw [this]
    exact step_bot (loadCmdPhase_bot _ b) F1

theorem unloadCmdPhase_piece (p : Piece) (b : Bot) : (unloadCmdPhase p b).1.1 = p := by
  by_cases hbb : b.isBotBase
  · cases honce : p.global_command_once_checks <;> simp [unloadCmdPhase, hbb, honce]
  · simp only [Bool.not_eq_true] at hbb
    simp [unloadCmdPhase, hbb]

theorem unload_bot_kept (p : Piece) (b : Bot) : ((unload p b).1.1).bot = p.bot := by
  by_cases hpre : anyFails p.pre_unload_hooks = true
  · simp [unload, hpre]
  · simp only [Bool.not_eq_true] at hpre
    rcases hcp : unloadCmdPhase p b with ⟨⟨p', b'⟩, e?⟩
    have hp' : p' = p := by
      have := unloadCmdPhase_piece p b
      rw [hcp] at this
      exact this
    rw [hp'] at hcp
    cases e? <;>
      by_cases hpost : anyFails p.post_unload_hooks = true <;>
        simp [unload, step, hpre, hcp, hpost]

/-- C5 (amended).  The `_bot` host reference: reading it on a freshly
constructed piece raises `RuntimeError`; every `load` call sets it to
the given host at its very start — including calls that subsequently
fail, and repeated calls, which re-set it; `unload` never clears it. -/
theorem bot_ref_set_on_every_load_and_kept_by_unload :
    (∀ pid nm ex, (initPiece pid nm ex).botProp = .error .runtimeError) ∧
    (∀ p b, ((load p b).1.1).bot = some b.botId) ∧
    (∀ p b, ((unload p b).1.1).bot = p.bot) :=
  ⟨fun _ _ _ => rfl, load_bot_set, unload_bot_kept⟩

/-- Counterexample data for C5: one failing pre-load hook. -/
def wC5piece : Piece :=
  { initPiece 9 "wp5" [] with pre_load_hooks := [⟨1, true, true⟩] }

def wC5bot : Bot :=
  { botId := 45, isBotBase := false, commands := [], checks := [], once_checks := [],
    slash_commands := [], user_commands := [], message_commands := [],
    slash_checks := [], user_checks := [], message_checks := [], listeners := [],
    sync_scheduled := false }

/-- C5 counterexample.  The claim says the host reference stays `None`
until `load` succeeds at least once and is set only on the first
successful `load`.  Here `load` fails (a pre-load hook raises), no load
has ever succeeded — yet the piece's `_bot` already holds the host,
because the source assigns `self._bot = bot` before running the
pre-load hooks. -/
theorem bot_ref_set_despite_failed_load :
    (load wC5piece wC5bot).2 = some .hookFailed ∧
    ((load wC5piece wC5bot).1.1).bot = some 45 := by
  refine ⟨by decide, by decide⟩

/-- C6.  A pre-load hook failure aborts `load` entirely: the error is
surfaced, the host comes back exactly as it was — no command, check or
listener attached, no loop started — and the piece is untouched except
for the `_bot` assignment that precedes the hook phase. -/
theorem pre_load_hook_failure_aborts_load (p : Piece) (b : Bot)
    (h : anyFails p.pre_load_hooks = true) :
    load p b = (({ p with bot := some b.botId }, b), some .hookFailed) := by
  simp [load, h]

def wC6piece : Piece :=
  { initPiece 10 "wp6" [] with
      pre_load_hooks := [⟨1, true, false⟩, ⟨2, true, true⟩, ⟨3, true, false⟩],
      slash_commands :=
        [("sc", { name := "sc", callback := ⟨2, "sc", true⟩, checks := [], extras := [] })],
      loops := [⟨6, none, false⟩] }

def wC6bot : Bot :=
  { botId := 46, isBotBase := false, commands := [], checks := [], once_checks := [],
    slash_commands := [], user_commands := [], message_commands := [],
    slash_checks := [], user_checks := [], message_checks := [], listeners := [],
    sync_scheduled := false }

theorem pre_load_hook_failure_aborts_load_witness :
    load wC6piece wC6bot = (({ wC6piece with bot := some wC6bot.botId }, wC6bot),
      some .hookFailed) :=
  pre_load_hook_failure_aborts_load wC6piece wC6bot (by decide)

/-- Counterexample data for C7: one slash command with local check `5`
and slash-category check `9`, on a fresh interaction-only host. -/
def wC7cb : Callable := ⟨1, "cmd", true⟩

def wC7piece : Piece :=
  { initPiece 15 "wp7" [] with
      slash_commands := [("c", { name := "c", callback := wC7cb, checks := [5], extras := [] })],
      slash_command_checks := [9] }

def wC7bot : Bot :=
  { botId := 47, isBotBase := false, commands := [], checks := [], once_checks := [],
    slash_commands := [], user_commands := [], message_commands := [],
    slash_checks := [], user_checks := [], message_checks := [], listeners := [],
    sync_scheduled := false }

/-- C7 counterexample.  The claim says that after `load` every entry in
the Registry still has its original own check list and that only a copy
is installed on the host.  Here `load` succeeds, yet the Registry's own
slash entry now carries `[9, 5]` instead of its original `[5]`:
`_prepend_plugin_checks` rebinds the check list of the very command
object the Registry holds. -/
theorem load_mutates_registry_entry_checks :
    (load wC7piece wC7bot).2 = none ∧
    ((load wC7piece wC7bot).1.1).slash_commands ≠ wC7piece.slash_commands ∧
    dictGet ((load wC7piece wC7bot).1.1).slash_commands "c"
      = some { name := "c", callback := wC7cb, checks := [9, 5], extras := [] } := by
  refine ⟨by decide, by decide, by decide⟩

/-- C7 (amended).  `load` leaves the Registry's nine check sequences
(and the call-once slot) unchanged, but it does not preserve the
entries' own check lists: each registered entry's check list is rebound
in place to the category checks followed by its original checks, and
the host table holds that same mutated entry, not a copy of the
original. -/
theorem load_keeps_check_sequences_but_mutates_entries (p : Piece) (b : Bot)
    (h : (load p b).2 = none) :
    ((load p b).1.1).command_checks = p.command_checks ∧
    ((load p b).1.1).slash_command_checks = p.slash_command_checks ∧
    ((load p b).1.1).message_command_checks = p.message_command_checks ∧
    ((load p b).1.1).user_command_checks = p.user_command_checks ∧
    ((load p b).1.1).global_command_checks = p.global_command_checks ∧
    ((load p b).1.1).global_command_once_checks = p.global_command_once_checks ∧
    ((load p b).1.1).global_application_command_checks
        = p.global_application_command_checks ∧
    ((load p b).1.1).global_slash_command_checks = p.global_slash_command_checks ∧
    ((load p b).1.1).global_message_command_checks = p.global_message_command_checks ∧
    ((load p b).1.1).global_user_command_checks = p.global_user_command_checks ∧
    (∀ n c, dictGet p.slash_commands n = some c →
      dictGet ((load p b).1.1).slash_commands n
          = some { c with checks := p.slash_command_checks ++ c.checks } ∧
      dictGet ((load p b).1.2).slash_commands n
          = dictGet ((load p b).1.1).slash_commands n) := by
  obtain ⟨hP, hB, _, _, _, hslash, _, _, _⟩ := load_ok p b h
  rw [hP, hB]
  refine ⟨rfl, rfl, rfl, rfl, rfl, rfl, rfl, rfl, rfl, rfl, ?_⟩
  intro n c hg
  obtain ⟨h1, h2⟩ := attach_lookup hslash hg
  refine ⟨by simpa [pLoaded] using h2, ?_⟩
  have hb' : dictGet (bLoaded p b).slash_commands n
      = some { c with checks := p.slash_command_checks ++ c.checks } := by
    simpa [bLoaded] using h1
  have hp' : dictGet (pLoaded p b).slash_commands n
      = some { c with checks := p.slash_command_checks ++ c.checks } := by
    simpa [pLoaded] using h2
  rw [hb', hp']

/-- Witness data for the amended C7. -/
def wC7wpiece : Piece :=
  { initPiece 16 "wp7w" [] with
      slash_commands :=
        [("d", { name := "d", callback := ⟨2, "d", true⟩, checks := [6], extras := [] })],
      slash_command_checks := [3],
      global_slash_command_checks := [4] }

theorem load_keeps_check_sequences_but_mutates_entries_witness :
    ((load wC7wpiece wC7bot).1.1).slash_command_checks = wC7wpiece.slash_command_checks ∧
    ((load wC7wpiece wC7bot).1.1).global_slash_command_checks
        = wC7wpiece.global_slash_command_checks :=
  ⟨(load_keeps_check_sequences_but_mutates_entries wC7wpiece wC7bot (by decide)).2.1,
   (load_keeps_check_sequences_but_mutates_entries wC7wpiece wC7bot
      (by decide)).2.2.2.2.2.2.2.1⟩

theorem dictGet_dictInsert_self (tbl : List (String × α)) (k : String) (v : α) :
    dictGet (dictInsert tbl k v) k = some v := by
  induction tbl with
  | nil => simp [dictInsert, dictGet]
  | cons kv r ih =>
      obtain ⟨k', v'⟩ := kv
      by_cases hk : k' = k <;> simp [dictInsert, dictGet, hk, ih]

theorem mem_keysOf_dictInsert (tbl : List (String × α)) (k : String) (v : α) :
    k ∈ keysOf (dictInsert tbl k v) := by
  induction tbl with
  | nil => simp [dictInsert, keysOf]
  | cons kv r ih =>
      obtain ⟨k', v'⟩ := kv
      by_cases hk : k' = k
      · simp [dictInsert, keysOf, hk]
      · simp only [dictInsert, if_neg hk, keysOf, List.map_cons, List.mem_cons]
        exact Or.inr (by simpa [keysOf] using ih)

theorem keysOf_dictInsert_of_mem {k : String} (v : α) :
    ∀ {tbl : List (String × α)}, k ∈ keysOf tbl →
      keysOf (dictInsert tbl k v) = keysOf tbl := by
  intro tbl
  induction tbl with
  | nil => intro h; simp [keysOf] at h
  | cons kv r ih =>
      intro h
      obtain ⟨k', v'⟩ := kv
      by_cases hk : k' = k
      · simp [dictInsert, keysOf, hk]
      · have hr : k ∈ keysOf r := by
          simp only [keysOf, List.map_cons, List.mem_cons] at h
          rcases h with h | h
          · exact absurd h.symm hk
          · exact h
        have hrec := ih hr
        simp only [keysOf] at hrec
        simp only [dictInsert, if_neg hk, keysOf, List.map_cons, hrec]

theorem keysOf_dictInsert_of_not_mem {k : String} (v : α) :
    ∀ {tbl : List (String × α)}, k ∉ keysOf tbl →
      keysOf (dictInsert tbl k v) = keysOf tbl ++ [k] := by
  intro tbl
  induction tbl with
  | nil => intro _; simp [dictInsert, keysOf]
  | cons kv r ih =>
      intro h
      obtain ⟨k', v'⟩ := kv
      have hk : k' ≠ k := by intro hc; exact h (by simp [keysOf, hc])
      have hr : k ∉ keysOf r := by
        intro hc; exact h (by simp [keysOf] at hc ⊢; exact Or.inr hc)
      have hrec := ih hr
      simp only [keysOf] at hrec
      simp only [dictInsert, if_neg hk, keysOf, List.map_cons, hrec, List.cons_append]

theorem values_dictInsert_twice {k : String} {v1 v2 : α} :
    ∀ {tbl : List (String × α)} {x : α},
      x ∈ (dictInsert (dictInsert tbl k v1) k v2).map Prod.snd →
      x ∈ tbl.map Prod.snd ∨ x = v2 := by
  intro tbl
  induction tbl with
  | nil =>
      intro x h
      simp [dictInsert] at h
      exact Or.inr h
  | cons kv r ih =>
      intro x h
      obtain ⟨k', v'⟩ := kv
      by_cases hk : k' = k
      · simp only [dictInsert, if_pos hk, List.map_cons, List.mem_cons] at h
        rcases h with h | h
        · exact Or.inr h
        · exact Or.inl (by simp only [List.map_cons, List.mem_cons]; exact Or.inr h)
      · simp only [dictInsert, if_neg hk, List.map_cons, List.mem_cons] at h
        rcases h with h | h
        · exact Or.inl (by simp only [List.map_cons, List.mem_cons]; exact Or.inl h)
        · rcases ih h with h' | h'
          · exact Or.inl (by simp only [List.map_cons, List.mem_cons]; exact Or.inr h')
          · exact Or.inr h'

theorem mkCommand_name (cb : Callable) (nm : String) : (mkCommand cb nm).name = nm := rfl

/-- C8.  Overwrite-by-name: registering a second ordinary command under
a qualified name already used replaces the first in place — afterwards
the Registry maps the name to the second command, the category's keys
(and their order, hence the replaced name's position) are exactly as
before the second registration, key uniqueness is preserved, the first
command is gone from the Registry's values, and a subsequent successful
`load` installs the second command (with category checks prepended)
under that name on the host. -/
theorem second_registration_wins_and_is_attached
    (p : Piece) (n : String) (kw1 kw2 : List (String × Nat)) (cb1 cb2 : Callable)
    (p1 p2 : Piece) (c1 c2 : Command)
    (h1 : p.command (some n) kw1 cb1 = .ok (p1, c1))
    (h2 : p1.command (some n) kw2 cb2 = .ok (p2, c2)) :
    dictGet p2.commands n = some c2 ∧
    keysOf p2.commands = keysOf p1.commands ∧
    ((keysOf p.commands).Nodup → (keysOf p2.commands).Nodup) ∧
    (c1 ∉ p.commands.map Prod.snd → c1 ≠ c2 → c1 ∉ p2.commands.map Prod.snd) ∧
    (∀ b : Bot, b.isBotBase = true → (load p2 b).2 = none →
      dictGet ((load p2 b).1.2).commands n
        = some { c2 with checks := p2.command_checks ++ c2.checks }) := by
  have hco1 : cb1.isCoroutine = true := by
    by_cases hc : cb1.isCoroutine
    · exact hc
    · simp [Piece.command, hc] at h1
  have hco2 : cb2.isCoroutine = true := by
    by_cases hc : cb2.isCoroutine
    · exact hc
    · simp [Piece.command, hc] at h2
  simp only [Piece.command, hco1, if_true, Except.ok.injEq, Prod.mk.injEq,
    Option.getD_some, mkCommand_name] at h1
  simp only [Piece.command, hco2, if_true, Except.ok.injEq, Prod.mk.injEq,
    Option.getD_some, mkCommand_name] at h2
  obtain ⟨hp1, hc1⟩ := h1
  obtain ⟨hp2, hc2⟩ := h2
  have hcmds1 : p1.commands = dictInsert p.commands n c1 := by
    rw [← hp1, ← hc1]
  have hcmds2 : p2.commands = dictInsert p1.commands n c2 := by
    rw [← hp2, ← hc2]
  have hmem1 : n ∈ keysOf p1.commands := by
    rw [hcmds1]; exact mem_keysOf_dictInsert p.commands n c1
  refine ⟨?_, ?_, ?_, ?_, ?_⟩
  · rw [hcmds2]; exact dictGet_dictInsert_self p1.commands n c2
  · rw [hcmds2]; exact keysOf_dictInsert_of_mem c2 hmem1
  · intro hnd
    rw [hcmds2, keysOf_dictInsert_of_mem c2 hmem1, hcmds1]
    by_cases hm : n ∈ keysOf p.commands
    · rw [keysOf_dictInsert_of_mem c1 hm]; exact hnd
    · rw [keysOf_dictInsert_of_not_mem c1 hm]
      simpa using List.Nodup.append hnd (by simp) (by simpa [List.disjoint_singleton] using hm)
  · intro hnv hne hc
    rw [hcmds2, hcmds1] at hc
    rcases values_dictInsert_twice hc with h' | h'
    · exact hnv h'
    · exact hne h'
  · intro b hbb hload
    obtain ⟨_, hB, _, _, hcmd, _, _, _, _⟩ := load_ok p2 b hload
    rw [hB]
    have := attach_lookup (hcmd hbb).1
      (c := c2) (n := n) (by rw [hcmds2]; exact dictGet_dictInsert_self p1.commands n c2)
    have hb' := this.1
    simpa [bLoaded, hbb] using hb'

/-- Witness data for C8: the same name registered twice on a piece
whose call-once slot happens to be set, so that a prefixed-command load
can complete. -/
def wC8cb1 : Callable := ⟨1, "a", true⟩

def wC8cb2 : Callable := ⟨2, "b", true⟩

def wC8p0 : Piece :=
  { initPiece 17 "wp8" [] with global_command_once_checks := some [] }

def wC8p1 : Piece := { wC8p0 with commands := [("x", mkCommand wC8cb1 "x")] }

def wC8p2 : Piece := { wC8p0 with commands := [("x", mkCommand wC8cb2 "x")] }

def wC8bot : Bot :=
  { botId := 48, isBotBase := true, commands := [], checks := [], once_checks := [],
    slash_commands := [], user_commands := [], message_commands := [],
    slash_checks := [], user_checks := [], message_checks := [], listeners := [],
    sync_scheduled := false }

theorem second_registration_wins_and_is_attached_witness :
    dictGet wC8p2.commands "x" = some (mkCommand wC8cb2 "x") ∧
    dictGet ((load wC8p2 wC8bot).1.2).commands "x"
      = some { mkCommand wC8cb2 "x" with
          checks := wC8p2.command_checks ++ (mkCommand wC8cb2 "x").checks } := by
  have r := second_registration_wins_and_is_attached wC8p0 "x" [] [] wC8cb1 wC8cb2
    wC8p1 wC8p2 (mkCommand wC8cb1 "x") (mkCommand wC8cb2 "x") rfl rfl
  exact ⟨r.1, r.2.2.2.2 wC8bot rfl (by decide)⟩

/-- Counterexample data for C9: a non-coroutine callable offered to the
listener registrar and a non-coroutine hook offered to the hook
registrar. -/
def wC9f : Callable := ⟨5, "handler", false⟩

/-- C9 counterexample.  The claim says every registrar requiring an
asynchronous callable — including listener and hook registrars — fails
with `NotACoroutineError` on a non-coroutine callable, leaving the
registration sequence unchanged.  In the source only the command
registrars validate: `add_listeners` and `load_hook` accept the
non-coroutine callable and append it, changing the sequence. -/
theorem non_coroutine_listener_registered :
    ((initPiece 12 "wp9" []).add_listeners [wC9f] (some "on_msg")).listeners
        = [("on_msg", [wC9f])] ∧
    (initPiece 12 "wp9" []).add_listeners [wC9f] (some "on_msg") ≠ initPiece 12 "wp9" [] ∧
    ((initPiece 12 "wp9" []).load_hook false ⟨7, false, false⟩).1.pre_load_hooks
        = [⟨7, false, false⟩] := by
  refine ⟨by decide, by decide, by decide⟩

/-- C9 (amended).  Only the command registrars (`command`, `group`,
`slash_command` and its user/message analogues) validate their callback
and raise `TypeError` on a non-coroutine callable, leaving the Registry
untouched; the listener and hook registrars perform no validation and
append the callable as given. -/
theorem only_command_registrars_validate_coroutines (p : Piece) (cb : Callable)
    (hnc : cb.isCoroutine = false) :
    (∀ n kw, p.command n kw cb = .error .typeError) ∧
    (∀ n kw, p.group n kw cb = .error .typeError) ∧
    (∀ n a, p.slash_command n a cb = .error .typeError) ∧
    (∀ ev, (p.add_listeners [cb] (some ev)).listeners = listenerInsert p.listeners ev cb) ∧
    (∀ hk : Hook, (p.load_hook false hk).1.pre_load_hooks = p.pre_load_hooks ++ [hk] ∧
      (p.unload_hook false hk).1.pre_unload_hooks = p.pre_unload_hooks ++ [hk]) := by
  refine ⟨?_, ?_, ?_, ?_, ?_⟩
  · intro n kw; simp [Piece.command, hnc]
  · intro n kw; simp [Piece.group, hnc]
  · intro n a; simp [Piece.slash_command, hnc]
  · intro ev; simp [Piece.add_listeners]
  · intro hk; exact ⟨rfl, rfl⟩

theorem only_command_registrars_validate_coroutines_witness :
    (initPiece 13 "wp9w" []).command (some "x") [] wC9f = .error .typeError ∧
    ((initPiece 13 "wp9w" []).add_listeners [wC9f] (some "e")).listeners
      = listenerInsert (initPiece 13 "wp9w" []).listeners "e" wC9f :=
  ⟨(only_command_registrars_validate_coroutines (initPiece 13 "wp9w" []) wC9f
      (by decide)).1 (some "x") [],
   (only_command_registrars_validate_coroutines (initPiece 13 "wp9w" []) wC9f
      (by decide)).2.2.2.1 "e"⟩

/-- C10.  Keyword attributes passed to the prefixed-command registrars
are inert: `Piece.command` and `Piece.group` produce exactly the same
result whatever `kwargs` they are given (the source never reads them),
and the registered entry carries no extras at all — in particular no
`"piece"` back-reference, since `_apply_attrs` is never invoked. -/
theorem command_kwargs_inert (p : Piece) (n : Option String)
    (kw : List (String × Nat)) (cb : Callable) :
    p.command n kw cb = p.command n [] cb ∧
    p.group n kw cb = p.group n [] cb ∧
    (∀ p' c, p.command n kw cb = .ok (p', c) →
      c.extras = [] ∧ dictGet c.extras "piece" = none) := by
  refine ⟨rfl, rfl, ?_⟩
  intro p' c h
  by_cases hc : cb.isCoroutine
  · simp only [Piece.command, hc, if_true, Except.ok.injEq, Prod.mk.injEq] at h
    rw [← h.2]
    exact ⟨rfl, rfl⟩
  · simp [Piece.command, hc] at h

def wC10cb : Callable := ⟨8, "x", true⟩

theorem command_kwargs_inert_witness :
    (initPiece 14 "wp10" []).command (some "x") [("cooldown", 3)] wC10cb
      = (initPiece 14 "wp10" []).command (some "x") [] wC10cb :=
  (command_kwargs_inert (initPiece 14 "wp10" []) (some "x") [("cooldown", 3)] wC10cb).1

end Pieces
